import Mathlib

/- Verification of core components of the RunKV distributed LSM key-value store.

   The definitions below are shallow embeddings of the Rust sources:
   - src/exhauster/src/service.rs   (compaction service, SST id allocator)
   - src/wheel/src/worker/raft.rs   (Raft worker: build, run_inner, handle_ready,
                                     send_messages, apply_snapshot)
   - src/wheel/src/components/gear.rs (Gear FSM adapter)

   Pure functions become Lean functions; stateful code is explicit state
   passing; effectful steps produce event traces; machine integers are Nat
   with explicit wrap-around where the source can overflow; fallible code
   returns Except.  Components of the repository whose sources are not part
   of the snapshot (merge iterator, compaction filter, partitioner, sstable
   builder/store) are either abstract capability parameters, matching the
   capability-object design of the spec, or are modelled from the spec where
   their behaviour is needed. -/

namespace RunKV

/-! ## SST id allocation (src/exhauster/src/service.rs, Exhauster::gen_sstable_id) -/

/-- Shallow embedding of `Exhauster::gen_sstable_id`.  `ctr` is the current value
of the `sstable_sequential_id` atomic (a `u64` cell, so an invariant
`ctr < 2 ^ 64` is maintained by the increment below); the id is
`(node_id << 32) | sequential_id`, computed on `u64`, so the shift wraps at
`2 ^ 64`. -/
def genSstableId (nodeId ctr : Nat) : Nat :=
  ((nodeId <<< 32) % 2 ^ 64) ||| ctr

/-- The counter value stored back by `fetch_add(1, SeqCst)`: the old value plus
one, wrapping at `2 ^ 64`. -/
def nextSequentialId (ctr : Nat) : Nat :=
  (ctr + 1) % 2 ^ 64

/-- The ids returned by `n` successive calls to `gen_sstable_id` starting from
counter value `c0`. -/
def sstableIdSeq (nodeId c0 : Nat) : Nat → List Nat
  | 0 => []
  | n + 1 => genSstableId nodeId c0 :: sstableIdSeq nodeId (nextSequentialId c0) n

theorem genSstableId_eq (nodeId ctr : Nat) (hn : nodeId < 2 ^ 32) (hc : ctr < 2 ^ 32) :
    genSstableId nodeId ctr = nodeId * 2 ^ 32 + ctr := by
  unfold genSstableId
  have h1 : nodeId <<< 32 = nodeId * 2 ^ 32 := Nat.shiftLeft_eq nodeId 32
  have h2 : nodeId * 2 ^ 32 < 2 ^ 64 := by
    have : nodeId * 2 ^ 32 < 2 ^ 32 * 2 ^ 32 :=
      Nat.mul_lt_mul_of_lt_of_le hn (le_refl _) (by norm_num)
    calc nodeId * 2 ^ 32 < 2 ^ 32 * 2 ^ 32 := this
      _ = 2 ^ 64 := by norm_num
  rw [h1, Nat.mod_eq_of_lt h2]
  calc nodeId * 2 ^ 32 ||| ctr = 2 ^ 32 * nodeId ||| ctr := by rw [Nat.mul_comm]
    _ = 2 ^ 32 * nodeId + ctr := (Nat.mul_add_lt_is_or hc nodeId).symm
    _ = nodeId * 2 ^ 32 + ctr := by rw [Nat.mul_comm]

theorem sstableIdSeq_eq (nodeId : Nat) (hn : nodeId < 2 ^ 32) :
    ∀ (n c0 : Nat), c0 + n ≤ 2 ^ 32 →
      sstableIdSeq nodeId c0 n = (List.range n).map (fun i => nodeId * 2 ^ 32 + (c0 + i))
  | 0, c0, _ => rfl
  | n + 1, c0, h => by
    have hc0 : c0 < 2 ^ 32 := by omega
    have hlt : c0 + 1 < 2 ^ 64 := by
      have h32 : (2 : Nat) ^ 32 < 2 ^ 64 := by norm_num
      omega
    have hmod : nextSequentialId c0 = c0 + 1 := Nat.mod_eq_of_lt hlt
    rw [List.range_succ_eq_map]
    unfold sstableIdSeq
    rw [hmod, sstableIdSeq_eq nodeId hn n (c0 + 1) (by omega)]
    simp only [List.map_cons, List.map_map]
    congr 1
    · rw [genSstableId_eq nodeId c0 hn hc0]
      omega
    · congr 1
      funext i
      simp [Function.comp]
      omega

/-- C3: every id allocated is `(node_id << 32) | counter` with the counter bumped
by one per allocation (this is the definition of `genSstableId` and
`sstableIdSeq`); when the node id fits in 32 bits and the counter stays at or
below `2 ^ 32` across the whole sequence of allocations, successive ids are
pairwise strictly increasing and pairwise distinct. -/
theorem gen_sstable_id_monotone (nodeId c0 n : Nat) (hn : nodeId < 2 ^ 32)
    (hc : c0 + n ≤ 2 ^ 32) :
    (sstableIdSeq nodeId c0 n).Pairwise (· < ·) ∧
      (sstableIdSeq nodeId c0 n).Pairwise (· ≠ ·) := by
  rw [sstableIdSeq_eq nodeId hn n c0 hc]
  have hp : (List.range n).Pairwise (· < ·) := List.pairwise_lt_range n
  constructor
  · exact List.pairwise_map.mpr (hp.imp (fun hij => by omega))
  · exact List.pairwise_map.mpr (hp.imp (fun hij => by omega))

/-- Witness for C3 at a concrete input: node 1, counter starting at 0, three
allocations. -/
theorem gen_sstable_id_monotone_witness :
    ((1 : Nat) < 2 ^ 32 ∧ (0 : Nat) + 3 ≤ 2 ^ 32) ∧
      (sstableIdSeq 1 0 3).Pairwise (· < ·) :=
  ⟨⟨by norm_num, by norm_num⟩,
    (gen_sstable_id_monotone 1 0 3 (by norm_num) (by norm_num)).1⟩

/-! ## Gear (src/wheel/src/components/gear.rs) -/

/-- An `Apply { group, range }` notification as sent on `Gear.apply_tx`. -/
structure ApplyNotice where
  group : Nat
  rangeStart : Nat
  rangeEnd : Nat
deriving DecidableEq

/-- A `Snapshot` command as sent on `Gear.snapshot_tx` (notifier channel elided). -/
inductive SnapshotCmd
  | build (group index : Nat)
  | install (group index : Nat) (snapshot : List Nat)
deriving DecidableEq

/-- The observable state of a `Gear`: everything it has ever sent on each of its
two channels. -/
structure GearState where
  applyQueue : List ApplyNotice
  snapshotQueue : List SnapshotCmd
deriving DecidableEq

/-- Shallow embedding of `Gear::apply` (src/wheel/src/components/gear.rs): the body
is `Ok(())`; no channel is touched and no state changes. -/
def gearApply (g : GearState) (_group _index : Nat) (_request : List Nat) :
    Except String Unit × GearState :=
  (Except.ok (), g)

/-- Shallow embedding of `Gear::post_apply`: sends `Apply { group, range }` on
`apply_tx`. -/
def gearPostApply (g : GearState) (group rangeStart rangeEnd : Nat) :
    Except String Unit × GearState :=
  (Except.ok (), { g with applyQueue := g.applyQueue ++ [⟨group, rangeStart, rangeEnd⟩] })

/-- C10: `Gear::apply` returns `Ok(())` for every input and has no effect: both
channels and all state are left unchanged. -/
theorem gear_apply_noop (g : GearState) (group index : Nat) (request : List Nat) :
    gearApply g group index request = (Except.ok (), g) ∧
      (gearApply g group index request).2.applyQueue = g.applyQueue ∧
      (gearApply g group index request).2.snapshotQueue = g.snapshotQueue :=
  ⟨rfl, rfl, rfl⟩

/-! ## Raft worker build (src/wheel/src/worker/raft.rs, RaftWorker::build) -/

/-- Startup mode of a Raft worker: `RaftStartMode::Initialize { peers }` or
`RaftStartMode::Restart { peers }`. -/
inductive RaftStartMode
  | Init (peers : List Nat)
  | Restart (peers : List Nat)
deriving DecidableEq

/-- The fields of `raft::Config` that `RaftWorker::build` sets explicitly. -/
structure RaftConfigModel where
  id : Nat
  applied : Nat
  maxSizePerMsg : Nat
  maxInflightMsgs : Nat
  checkQuorum : Bool
  preVote : Bool
  batchAppend : Bool
deriving DecidableEq

/-- The externally visible outcome of `RaftWorker::build`: the Raft config it
validates and passes to `RawNode::new`, the `ConfState` it writes to the log
store (if any), and the peers for which it creates network clients. -/
structure RaftBuildResult where
  config : RaftConfigModel
  confStateWritten : Option (List Nat)
  clientPeers : List Nat
deriving DecidableEq

/-- Shallow embedding of `RaftWorker::build`.  `fsmAppliedIndex` is the value the
FSM capability returns from `raft_applied_index()`; it is consulted only in
`Restart` mode.  In `Initialize` mode a `ConfState` with `voters = peers` is
written via `put_conf_state`; in `Restart` mode nothing is written (the raft
library reads the persisted `ConfState` from the log store inside
`RawNode::new`, outside this embedding). -/
def raftWorkerBuild (raftNode : Nat) (mode : RaftStartMode) (fsmAppliedIndex : Nat) :
    RaftBuildResult :=
  let applied := match mode with
    | .Init _ => 0
    | .Restart _ => fsmAppliedIndex
  let peers := match mode with
    | .Init ps => ps
    | .Restart ps => ps
  let cs : Option (List Nat) := match mode with
    | .Init _ => some peers
    | .Restart _ => none
  { config :=
      { id := raftNode, applied := applied, maxSizePerMsg := 2 ^ 20,
        maxInflightMsgs := 256, checkQuorum := true, preVote := true,
        batchAppend := true },
    confStateWritten := cs,
    clientPeers := peers }

/-- C5: in `Initialize` mode, `build` writes a `ConfState` whose voters are the
given peers and configures `applied = 0`; in `Restart` mode it configures
`applied` from the FSM's `raft_applied_index()`, writes no `ConfState`, and the
peers parameter only feeds client construction (the config written does not
depend on it). -/
theorem raft_worker_build_modes (raftNode fsmApplied : Nat) (peers : List Nat) :
    (raftWorkerBuild raftNode (.Init peers) fsmApplied).confStateWritten = some peers ∧
      (raftWorkerBuild raftNode (.Init peers) fsmApplied).config.applied = 0 ∧
      (raftWorkerBuild raftNode (.Restart peers) fsmApplied).config.applied = fsmApplied ∧
      (raftWorkerBuild raftNode (.Restart peers) fsmApplied).confStateWritten = none ∧
      (raftWorkerBuild raftNode (.Restart peers) fsmApplied).clientPeers = peers ∧
      (raftWorkerBuild raftNode (.Restart peers) fsmApplied).config =
        (raftWorkerBuild raftNode (.Restart []) fsmApplied).config :=
  ⟨rfl, rfl, rfl, rfl, rfl, rfl⟩

/-! ## Raft message fan-out (src/wheel/src/worker/raft.rs, RaftWorker::send_messages) -/

/-- A raft protocol message; only the destination (`msg.dest`) and an opaque body
matter for the fan-out logic. -/
structure RMsg where
  dest : Nat
  body : Nat
deriving DecidableEq

/-- One step of building the `HashMap<raft_node, Vec<Message>>` in
`send_messages`: `raft_node_msgs.entry(to).or_insert_with(Vec::new).push(msg)`.
Groups are kept in first-occurrence order (the hash map's iteration order is
unspecified in the source; only the per-destination contents are). -/
def insertDest (acc : List (Nat × List RMsg)) (m : RMsg) : List (Nat × List RMsg) :=
  match acc with
  | [] => [(m.dest, [m])]
  | g :: gs => if g.1 = m.dest then (g.1, g.2 ++ [m]) :: gs else g :: insertDest gs m

/-- The grouping loop of `send_messages`. -/
def groupByDest (msgs : List RMsg) : List (Nat × List RMsg) :=
  msgs.foldl insertDest []

/-- Lookup of one destination's batch among the groups. -/
def findGroup (gs : List (Nat × List RMsg)) (d : Nat) : List RMsg :=
  match gs with
  | [] => []
  | g :: gs => if g.1 = d then g.2 else findGroup gs d

/-- Shallow embedding of `RaftWorker::send_messages`.  `peers` is the key set of
the worker's `raft_clients` map, which `RaftWorker::build` populates with
exactly the peers given at construction.  An empty message list returns
immediately.  Otherwise messages are grouped by destination and each group is
sent through `self.raft_clients.get(&raft_node).unwrap()`: a destination
without a cached client panics, modelled as `none`. -/
def sendMessages (peers : List Nat) (msgs : List RMsg) : Option (List (Nat × List RMsg)) :=
  if msgs.isEmpty then some []
  else
    let groups := groupByDest msgs
    if groups.all (fun g => g.1 ∈ peers) then some groups else none

theorem findGroup_insertDest (acc : List (Nat × List RMsg)) (m : RMsg) (d : Nat) :
    findGroup (insertDest acc m) d =
      findGroup acc d ++ (if m.dest = d then [m] else []) := by
  induction acc with
  | nil =>
    by_cases h : m.dest = d <;> simp [insertDest, findGroup, h]
  | cons g gs ih =>
    by_cases hg : g.1 = m.dest
    · by_cases hd : g.1 = d
      · have hmd : m.dest = d := hg.symm.trans hd
        simp only [insertDest, if_pos hg, findGroup, if_pos hd, if_pos hmd]
      · have hmd : ¬ m.dest = d := fun h => hd (hg.trans h)
        simp only [insertDest, if_pos hg, findGroup, if_neg hd, if_neg hmd,
          List.append_nil]
    · by_cases hd : g.1 = d
      · have hmd : ¬ m.dest = d := fun h => hg (hd.trans h.symm)
        simp only [insertDest, if_neg hg, findGroup, if_pos hd, if_neg hmd,
          List.append_nil]
      · simp only [insertDest, if_neg hg, findGroup, if_neg hd, ih]

theorem findGroup_foldl (msgs : List RMsg) :
    ∀ (acc : List (Nat × List RMsg)) (d : Nat),
      findGroup (msgs.foldl insertDest acc) d =
        findGroup acc d ++ msgs.filter (fun m => m.dest == d) := by
  induction msgs with
  | nil => intro acc d; simp
  | cons m ms ih =>
    intro acc d
    by_cases h : m.dest = d
    · simp [List.foldl_cons, ih, findGroup_insertDest, h, List.filter_cons]
    · simp [List.foldl_cons, ih, findGroup_insertDest, h, List.filter_cons]

theorem mem_keys_insertDest (acc : List (Nat × List RMsg)) (m : RMsg) (d : Nat) :
    d ∈ (insertDest acc m).map (fun g => g.1) ↔
      d ∈ acc.map (fun g => g.1) ∨ d = m.dest := by
  induction acc with
  | nil => simp [insertDest, eq_comm]
  | cons g gs ih =>
    by_cases hg : g.1 = m.dest
    · simp only [insertDest, if_pos hg, List.map_cons, List.mem_cons]
      rw [hg]
      tauto
    · simp only [insertDest, if_neg hg, List.map_cons, List.mem_cons, ih]
      tauto

theorem mem_keys_groupByDest (msgs : List RMsg) (d : Nat) :
    d ∈ (groupByDest msgs).map (fun g => g.1) ↔ ∃ m ∈ msgs, m.dest = d := by
  unfold groupByDest
  have main : ∀ (acc : List (Nat × List RMsg)),
      d ∈ (msgs.foldl insertDest acc).map (fun g => g.1) ↔
        d ∈ acc.map (fun g => g.1) ∨ ∃ m ∈ msgs, m.dest = d := by
    induction msgs with
    | nil => intro acc; simp
    | cons m ms ih =>
      intro acc
      rw [List.foldl_cons, ih, mem_keys_insertDest]
      constructor
      · rintro ((h | h) | h)
        · exact Or.inl h
        · exact Or.inr ⟨m, by simp, h.symm⟩
        · obtain ⟨m2, hm2, hd2⟩ := h
          exact Or.inr ⟨m2, by simp [hm2], hd2⟩
      · rintro (h | ⟨m2, hm2, hd2⟩)
        · exact Or.inl (Or.inl h)
        · rcases List.mem_cons.mp hm2 with h2 | h2
          · exact Or.inl (Or.inr (h2 ▸ hd2.symm))
          · exact Or.inr ⟨m2, h2, hd2⟩
  rw [main []]
  simp

/-- C9: `send_messages` groups its input by destination and each destination's
batch is exactly the input messages addressed to it, in input order; if some
message is addressed to a destination that is not among the peers given at
construction, the client lookup is unwrapped and the worker panics (`none`). -/
theorem send_messages_grouping (peers : List Nat) (msgs : List RMsg) :
    ((∀ m ∈ msgs, m.dest ∈ peers) →
      (sendMessages peers msgs).isSome = true ∧
        ∀ d : Nat, findGroup ((sendMessages peers msgs).getD []) d =
          msgs.filter (fun m => m.dest == d)) ∧
      ((∃ m ∈ msgs, m.dest ∉ peers) → sendMessages peers msgs = none) := by
  constructor
  · intro hall
    by_cases hemp : msgs.isEmpty
    · have : msgs = [] := List.isEmpty_iff.mp hemp
      subst this
      refine ⟨by simp [sendMessages], ?_⟩
      intro d
      simp [sendMessages, findGroup]
    · have hkeys : (groupByDest msgs).all (fun g => decide (g.1 ∈ peers)) = true := by
        rw [List.all_eq_true]
        intro g hg
        have : g.1 ∈ (groupByDest msgs).map (fun g => g.1) :=
          List.mem_map.mpr ⟨g, hg, rfl⟩
        obtain ⟨m, hm, hd⟩ := (mem_keys_groupByDest msgs g.1).mp this
        exact decide_eq_true (hd ▸ hall m hm)
      constructor
      · simp only [sendMessages, hemp, if_false]
        simp [hkeys]
      · intro d
        simp only [sendMessages, hemp, if_false]
        simp only [hkeys, if_true]
        have := findGroup_foldl msgs [] d
        simpa [groupByDest, findGroup] using this
  · rintro ⟨m, hm, hto⟩
    have hemp : msgs.isEmpty = false := by
      cases msgs with
      | nil => cases hm
      | cons a as => simp
    have hkey : m.dest ∈ (groupByDest msgs).map (fun g => g.1) :=
      (mem_keys_groupByDest msgs m.dest).mpr ⟨m, hm, rfl⟩
    obtain ⟨g, hg, hgd⟩ := List.mem_map.mp hkey
    have : (groupByDest msgs).all (fun g => decide (g.1 ∈ peers)) = false := by
      rw [List.all_eq_false]
      exact ⟨g, hg, by simp [hgd, hto]⟩
    simp [sendMessages, hemp, this]

/-- Witness for C9 at a concrete input: peers 1 and 2, three messages. -/
theorem send_messages_grouping_witness :
    (sendMessages [1, 2] [⟨1, 10⟩, ⟨2, 20⟩, ⟨1, 30⟩]).isSome = true ∧
      findGroup ((sendMessages [1, 2] [⟨1, 10⟩, ⟨2, 20⟩, ⟨1, 30⟩]).getD []) 1 =
        List.filter (fun m => m.dest == 1) [⟨1, 10⟩, ⟨2, 20⟩, ⟨1, 30⟩] :=
  ⟨((send_messages_grouping [1, 2] [⟨1, 10⟩, ⟨2, 20⟩, ⟨1, 30⟩]).1 (by decide)).1,
    ((send_messages_grouping [1, 2] [⟨1, 10⟩, ⟨2, 20⟩, ⟨1, 30⟩]).1 (by decide)).2 1⟩

/-! ## Raft worker main loop (src/wheel/src/worker/raft.rs, RaftWorker::run_inner) -/

/-- A proposal (`Proposal { data, context }`); payloads are opaque. -/
structure ProposalMsg where
  data : Nat
  context : Nat
deriving DecidableEq

/-- The calls one `run_inner` loop iteration makes into the Raft state machine,
in order. -/
inductive LoopEvent
  | propose (p : ProposalMsg)
  | step (m : RMsg)
  | ready
deriving DecidableEq

/-- Results of the fallible calls of one loop iteration. -/
structure LoopEnv where
  proposeRes : ProposalMsg → Except String Unit
  stepRes : RMsg → Except String Unit
  readyRes : Except String Unit

/-- Value of the `BATCH_SIZE` constant in `run_inner`. -/
def BATCH_SIZE : Nat := 128

/-- Runs a batch of fallible calls in order, recording one event per call made;
the first error aborts the batch (the `?` operator in the `for` loops of
`run_inner`). -/
def runCalls {α : Type} (f : α → Except String Unit) (mk : α → LoopEvent) :
    List α → List LoopEvent × Option String
  | [] => ([], none)
  | x :: xs =>
    match f x with
    | Except.error e => ([mk x], some e)
    | Except.ok _ =>
      let r := runCalls f mk xs
      (mk x :: r.1, r.2)

/-- Shallow embedding of one iteration of the loop in `RaftWorker::run_inner`
(metrics, tracing, and the timing/tick arithmetic at the bottom of the loop
act on clocks and gauges only and are omitted).  The two `try_recv` drains
poll each channel `BATCH_SIZE` times without blocking, so they take at most
the first `BATCH_SIZE` queued elements of each queue; then every drained
proposal is proposed, then every drained message is stepped, then
`handle_ready` runs only if `raft.has_ready()`. -/
def runInnerIteration (env : LoopEnv) (messages : List RMsg)
    (proposals : List ProposalMsg) (hasReady : Bool) :
    List LoopEvent × Option String :=
  let msgs := messages.take BATCH_SIZE
  let props := proposals.take BATCH_SIZE
  let pr := runCalls env.proposeRes LoopEvent.propose props
  match pr.2 with
  | some e => (pr.1, some e)
  | none =>
    let mr := runCalls env.stepRes LoopEvent.step msgs
    match mr.2 with
    | some e => (pr.1 ++ mr.1, some e)
    | none =>
      if hasReady then
        match env.readyRes with
        | Except.error e => (pr.1 ++ mr.1 ++ [LoopEvent.ready], some e)
        | Except.ok _ => (pr.1 ++ mr.1 ++ [LoopEvent.ready], none)
      else (pr.1 ++ mr.1, none)

def isProposeEv : LoopEvent → Bool
  | LoopEvent.propose _ => true
  | _ => false

def isStepEv : LoopEvent → Bool
  | LoopEvent.step _ => true
  | _ => false

theorem runCalls_length {α : Type} (f : α → Except String Unit) (mk : α → LoopEvent)
    (xs : List α) : (runCalls f mk xs).1.length ≤ xs.length := by
  induction xs with
  | nil => simp [runCalls]
  | cons x xs ih =>
    unfold runCalls
    cases f x with
    | error e => simp
    | ok _ => simpa using Nat.succ_le_succ ih

theorem runCalls_shape {α : Type} (f : α → Except String Unit) (mk : α → LoopEvent)
    (xs : List α) : ∀ e ∈ (runCalls f mk xs).1, ∃ x, e = mk x := by
  induction xs with
  | nil => simp [runCalls]
  | cons x xs ih =>
    unfold runCalls
    cases f x with
    | error er => intro e he; simp at he; exact ⟨x, he⟩
    | ok _ =>
      intro e he
      simp at he
      rcases he with h | h
      · exact ⟨x, h⟩
      · exact ih e h

/-- In a split trace, an element satisfying a predicate that holds nowhere in the
right part must sit in the left part. -/
theorem index_lt_of_pred {α : Type} {l1 l2 : List α} {p : α → Bool}
    (h2 : ∀ e ∈ l2, p e = false) (i : Fin (l1 ++ l2).length)
    (hp : p ((l1 ++ l2).get i) = true) : (i : Nat) < l1.length := by
  by_contra hge
  push_neg at hge
  have hb : (i : Nat) - l1.length < l2.length := by
    have := i.isLt
    simp only [List.length_append] at this
    omega
  have heq : (l1 ++ l2).get i = l2[(i : Nat) - l1.length] := by
    rw [List.get_eq_getElem, List.getElem_append_right hge]
  rw [heq] at hp
  rw [h2 _ (List.getElem_mem _)] at hp
  cases hp

/-- In a trace of the form left-part followed by right-part, where the left part
never satisfies q and the right part never satisfies p, any q-position is
preceded by every p-position. -/
theorem split_pred_order {α : Type} {l a b : List α} {p q : α → Bool}
    (hl : l = a ++ b)
    (h1 : ∀ e ∈ a, q e = false)
    (h2 : ∀ e ∈ b, p e = false)
    (i j : Fin l.length)
    (hi : q (l.get i) = true) (hj : p (l.get j) = true) : (j : Nat) < (i : Nat) := by
  subst hl
  have hj2 : (j : Nat) < a.length := index_lt_of_pred h2 j hj
  have hi2 : a.length ≤ (i : Nat) := by
    by_contra hlt
    push_neg at hlt
    have heq : (a ++ b).get i = a[(i : Nat)] := by
      rw [List.get_eq_getElem, List.getElem_append_left hlt]
    rw [heq] at hi
    rw [h1 _ (List.getElem_mem _)] at hi
    cases hi
  omega

/-- C6: one `run_inner` iteration drains at most `BATCH_SIZE = 128` messages and
at most 128 proposals (non-blocking `try_recv` polls each queue 128 times),
its call trace passes every drained proposal to `raft.propose` before any
drained message goes to `raft.step`, and `handle_ready` runs only if
`raft.has_ready()` reported work. -/
theorem run_inner_iteration_batching (env : LoopEnv) (messages : List RMsg)
    (proposals : List ProposalMsg) (hasReady : Bool) :
    ((runInnerIteration env messages proposals hasReady).1.countP isProposeEv ≤ 128 ∧
        (runInnerIteration env messages proposals hasReady).1.countP isStepEv ≤ 128) ∧
      (∀ i j : Fin (runInnerIteration env messages proposals hasReady).1.length,
        isStepEv ((runInnerIteration env messages proposals hasReady).1.get i) = true →
        isProposeEv ((runInnerIteration env messages proposals hasReady).1.get j) = true →
        (j : Nat) < i) ∧
      (LoopEvent.ready ∈ (runInnerIteration env messages proposals hasReady).1 →
        hasReady = true) := by
  have hps := runCalls_shape env.proposeRes LoopEvent.propose (proposals.take BATCH_SIZE)
  have hms := runCalls_shape env.stepRes LoopEvent.step (messages.take BATCH_SIZE)
  have hplen := runCalls_length env.proposeRes LoopEvent.propose (proposals.take BATCH_SIZE)
  have hmlen := runCalls_length env.stepRes LoopEvent.step (messages.take BATCH_SIZE)
  have hplen2 : (runCalls env.proposeRes LoopEvent.propose (proposals.take BATCH_SIZE)).1.length ≤ 128 :=
    le_trans hplen (le_trans (List.length_take_le _ _) (by simp [BATCH_SIZE]))
  have hmlen2 : (runCalls env.stepRes LoopEvent.step (messages.take BATCH_SIZE)).1.length ≤ 128 :=
    le_trans hmlen (le_trans (List.length_take_le _ _) (by simp [BATCH_SIZE]))
  have hpp : ∀ e ∈ (runCalls env.proposeRes LoopEvent.propose (proposals.take BATCH_SIZE)).1,
      isProposeEv e = true ∧ isStepEv e = false := by
    intro e he
    obtain ⟨x, hx⟩ := hps e he
    subst hx
    exact ⟨rfl, rfl⟩
  have hmm : ∀ e ∈ (runCalls env.stepRes LoopEvent.step (messages.take BATCH_SIZE)).1,
      isStepEv e = true ∧ isProposeEv e = false := by
    intro e he
    obtain ⟨x, hx⟩ := hms e he
    subst hx
    exact ⟨rfl, rfl⟩
  -- the trace always has the form P, P ++ M, or P ++ M ++ [ready]
  have key : ∀ (tr : List LoopEvent),
      (runInnerIteration env messages proposals hasReady).1 = tr →
      (tr = (runCalls env.proposeRes LoopEvent.propose (proposals.take BATCH_SIZE)).1 ∨
        tr = (runCalls env.proposeRes LoopEvent.propose (proposals.take BATCH_SIZE)).1 ++
          (runCalls env.stepRes LoopEvent.step (messages.take BATCH_SIZE)).1 ∨
        (tr = (runCalls env.proposeRes LoopEvent.propose (proposals.take BATCH_SIZE)).1 ++
          (runCalls env.stepRes LoopEvent.step (messages.take BATCH_SIZE)).1 ++
            [LoopEvent.ready] ∧ hasReady = true)) := by
    intro tr htr
    unfold runInnerIteration at htr
    rcases hcase : (runCalls env.proposeRes LoopEvent.propose (proposals.take BATCH_SIZE)).2 with _ | e
    · rcases hcase2 : (runCalls env.stepRes LoopEvent.step (messages.take BATCH_SIZE)).2 with _ | e2
      · cases hrdy : hasReady
        · simp only [hcase, hcase2, hrdy] at htr
          exact Or.inr (Or.inl htr.symm)
        · cases hres : env.readyRes with
          | error er =>
            simp only [hcase, hcase2, hrdy, hres] at htr
            exact Or.inr (Or.inr ⟨htr.symm, rfl⟩)
          | ok _ =>
            simp only [hcase, hcase2, hrdy, hres] at htr
            exact Or.inr (Or.inr ⟨htr.symm, rfl⟩)
      · simp only [hcase, hcase2] at htr
        exact Or.inr (Or.inl htr.symm)
    · simp only [hcase] at htr
      exact Or.inl htr.symm
  obtain hsh := key _ rfl
  refine ⟨⟨?_, ?_⟩, ?_, ?_⟩
  · rcases hsh with h | h | ⟨h, _⟩ <;> rw [h]
    · exact le_trans (List.countP_le_length _) hplen2
    · rw [List.countP_append]
      have : List.countP isProposeEv (runCalls env.stepRes LoopEvent.step (messages.take BATCH_SIZE)).1 = 0 := by
        rw [List.countP_eq_zero]
        intro e he
        simp [(hmm e he).2]
      rw [this]
      simpa using le_trans (List.countP_le_length _) hplen2
    · rw [List.countP_append, List.countP_append]
      have h1 : List.countP isProposeEv (runCalls env.stepRes LoopEvent.step (messages.take BATCH_SIZE)).1 = 0 := by
        rw [List.countP_eq_zero]
        intro e he
        simp [(hmm e he).2]
      have h2 : List.countP isProposeEv [LoopEvent.ready] = 0 := rfl
      rw [h1, h2]
      simpa using le_trans (List.countP_le_length _) hplen2
  · rcases hsh with h | h | ⟨h, _⟩ <;> rw [h]
    · have : List.countP isStepEv (runCalls env.proposeRes LoopEvent.propose (proposals.take BATCH_SIZE)).1 = 0 := by
        rw [List.countP_eq_zero]
        intro e he
        simp [(hpp e he).2]
      rw [this]
      exact Nat.zero_le _
    · rw [List.countP_append]
      have h1 : List.countP isStepEv (runCalls env.proposeRes LoopEvent.propose (proposals.take BATCH_SIZE)).1 = 0 := by
        rw [List.countP_eq_zero]
        intro e he
        simp [(hpp e he).2]
      rw [h1]
      simpa using le_trans (List.countP_le_length _) hmlen2
    · rw [List.countP_append, List.countP_append]
      have h1 : List.countP isStepEv (runCalls env.proposeRes LoopEvent.propose (proposals.take BATCH_SIZE)).1 = 0 := by
        rw [List.countP_eq_zero]
        intro e he
        simp [(hpp e he).2]
      have h2 : List.countP isStepEv [LoopEvent.ready] = 0 := rfl
      rw [h1, h2]
      simpa using le_trans (List.countP_le_length _) hmlen2
  · intro i j hi hj
    -- propose events all precede step events: split the trace after the propose part
    have hq1 : ∀ e ∈ (runCalls env.proposeRes LoopEvent.propose (proposals.take BATCH_SIZE)).1,
        isStepEv e = false := fun e he => (hpp e he).2
    rcases hsh with h | h | ⟨h, _⟩
    · exact split_pred_order (h.trans (List.append_nil _).symm) hq1 (by intro e he; cases he)
        i j hi hj
    · exact split_pred_order h hq1 (fun e he => (hmm e he).2) i j hi hj
    · refine split_pred_order (a := (runCalls env.proposeRes LoopEvent.propose (proposals.take BATCH_SIZE)).1)
        (b := (runCalls env.stepRes LoopEvent.step (messages.take BATCH_SIZE)).1 ++ [LoopEvent.ready])
        (by rw [h, List.append_assoc]) hq1 ?_ i j hi hj
      intro e he
      rcases List.mem_append.mp he with hm | hm
      · exact (hmm e hm).2
      · simp at hm
        subst hm
        rfl
  · intro hmem
    rcases hsh with h | h | ⟨_, hr⟩
    · rw [h] at hmem
      obtain ⟨x, hx⟩ := hps _ hmem
      cases hx
    · rw [h] at hmem
      rcases List.mem_append.mp hmem with hm | hm
      · obtain ⟨x, hx⟩ := hps _ hm
        cases hx
      · obtain ⟨x, hx⟩ := hms _ hm
        cases hx
    · exact hr

/-- An everything-succeeds environment for the loop iteration witness. -/
def loopEnvOk : LoopEnv :=
  { proposeRes := fun _ => Except.ok (),
    stepRes := fun _ => Except.ok (),
    readyRes := Except.ok () }

/-- Witness for C6 at a concrete input: one proposal, two messages, has_ready
true; the trace is propose, step, step, ready. -/
theorem run_inner_iteration_batching_witness :
    ((runInnerIteration loopEnvOk [⟨2, 5⟩, ⟨3, 6⟩] [⟨7, 8⟩] true).1.countP isProposeEv ≤ 128) ∧
      ((0 : Nat) < 1) :=
  ⟨(run_inner_iteration_batching loopEnvOk [⟨2, 5⟩, ⟨3, 6⟩] [⟨7, 8⟩] true).1.1,
    (run_inner_iteration_batching loopEnvOk [⟨2, 5⟩, ⟨3, 6⟩] [⟨7, 8⟩] true).2.1
      ⟨1, by decide⟩ ⟨0, by decide⟩ (by decide) (by decide)⟩

/-! ## handle_ready (src/wheel/src/worker/raft.rs, RaftWorker::handle_ready) -/

/-- Cached soft state (`raft::SoftState`): leader id and role. -/
structure SoftStateM where
  leaderId : Nat
  isLeader : Bool
deriving DecidableEq

/-- Raft `HardState`: current term, vote, commit index. -/
structure HardStateM where
  term : Nat
  vote : Nat
  commit : Nat
deriving DecidableEq

/-- A raft log entry; payloads are opaque. -/
structure REntry where
  term : Nat
  index : Nat
  data : List Nat
  context : List Nat
deriving DecidableEq

/-- A raft snapshot; `ready.snapshot().is_empty()` is modelled by the snapshot
being absent (`none`) in `ReadyM`. -/
structure RSnapshot where
  index : Nat
  data : List Nat
deriving DecidableEq

/-- The work packet `raft.ready()` returns. -/
structure ReadyM where
  softState : Option SoftStateM
  messages : List RMsg
  snapshot : Option RSnapshot
  committedEntries : List REntry
  entries : List REntry
  hardState : Option HardStateM
  persistedMessages : List RMsg

/-- The work packet `raft.advance(ready)` returns. -/
structure LightReadyM where
  messages : List RMsg
  committedEntries : List REntry

/-- The environment-visible steps `handle_ready` can perform, one tag per call
site in the source. -/
inductive HrStep
  | updateSoftState
  | sendReadyMessages
  | applySnapshot
  | applyCommittedEntries
  | appendEntries
  | persistHardState
  | sendPersistedMessages
  | advanceRaft
  | sendLightMessages
  | applyLightCommittedEntries
deriving DecidableEq

/-- How a `handle_ready` execution can stop early: an error propagated by `?`,
or a panic. -/
inductive HrAbort
  | err (e : String)
  | panicked
deriving DecidableEq

/-- Results of the fallible calls `handle_ready` makes, plus the `LightReady`
that `raft.advance` hands back. -/
structure HrEnv where
  sendRes : List RMsg → Except String Unit
  applyRes : List REntry → Except String Unit
  appendRes : List REntry → Except String Unit
  persistRes : HardStateM → Except String Unit
  advanceLight : LightReadyM

/-- Outcome of one `apply_snapshot` call. -/
inductive SnapshotApplyOutcome
  | panicked
  | completed
deriving DecidableEq

/-- Shallow embedding of `RaftWorker::apply_snapshot`
(src/wheel/src/worker/raft.rs): the body is `todo!()` (three `Impl me!!!`
comments above it), so every call panics unconditionally; nothing is persisted
to the log store and nothing is installed in the FSM. -/
def applySnapshotModel (_snapshot : RSnapshot) : SnapshotApplyOutcome :=
  SnapshotApplyOutcome.panicked

/-- Sequencing of `handle_ready` steps: an abort in the first part skips the
continuation (the `?` operator, or a panic unwinding). -/
def hrChain (a : List HrStep × Option HrAbort) (k : Unit → List HrStep × Option HrAbort) :
    List HrStep × Option HrAbort :=
  match a.2 with
  | some ab => (a.1, some ab)
  | none => (a.1 ++ (k ()).1, (k ()).2)

/-- Step 0 of `handle_ready`: update the cached soft state if `ready.ss()` is
present (infallible). -/
def hrSoftSeg (ready : ReadyM) : List HrStep × Option HrAbort :=
  match ready.softState with
  | some _ => ([HrStep.updateSoftState], none)
  | none => ([], none)

/-- A `send_messages` call: returns immediately on an empty message list,
otherwise fans out and can fail. -/
def hrSendSeg (env : HrEnv) (tag : HrStep) (msgs : List RMsg) :
    List HrStep × Option HrAbort :=
  if msgs.isEmpty then ([], none)
  else
    match env.sendRes msgs with
    | Except.ok _ => ([tag], none)
    | Except.error e => ([tag], some (HrAbort.err e))

/-- Step 2: `if !ready.snapshot().is_empty() { self.apply_snapshot(...).await? }`;
`apply_snapshot` is a stub that panics. -/
def hrSnapshotSeg (ready : ReadyM) : List HrStep × Option HrAbort :=
  match ready.snapshot with
  | none => ([], none)
  | some s =>
    match applySnapshotModel s with
    | SnapshotApplyOutcome.panicked => ([HrStep.applySnapshot], some HrAbort.panicked)
    | SnapshotApplyOutcome.completed => ([HrStep.applySnapshot], none)

/-- An `apply_log_entries` call (calls `fsm.apply` even on an empty batch). -/
def hrApplySeg (env : HrEnv) (tag : HrStep) (entries : List REntry) :
    List HrStep × Option HrAbort :=
  match env.applyRes entries with
  | Except.ok _ => ([tag], none)
  | Except.error e => ([tag], some (HrAbort.err e))

/-- Step 4: `append_log_entries` (returns immediately on an empty batch). -/
def hrAppendSeg (env : HrEnv) (entries : List REntry) : List HrStep × Option HrAbort :=
  if entries.isEmpty then ([], none)
  else
    match env.appendRes entries with
    | Except.ok _ => ([HrStep.appendEntries], none)
    | Except.error e => ([HrStep.appendEntries], some (HrAbort.err e))

/-- Step 5: `if let Some(hs) = ready.hs() { self.store_hard_state(hs).await? }`. -/
def hrPersistSeg (env : HrEnv) (hs : Option HardStateM) : List HrStep × Option HrAbort :=
  match hs with
  | none => ([], none)
  | some h =>
    match env.persistRes h with
    | Except.ok _ => ([HrStep.persistHardState], none)
    | Except.error e => ([HrStep.persistHardState], some (HrAbort.err e))

/-- Steps 7 to 9 of `handle_ready`: advance, send light-ready messages, apply
light-ready committed entries. -/
def hrStage7 (env : HrEnv) : List HrStep × Option HrAbort :=
  hrChain ([HrStep.advanceRaft], none) fun _ =>
  hrChain (hrSendSeg env HrStep.sendLightMessages env.advanceLight.messages) fun _ =>
  hrApplySeg env HrStep.applyLightCommittedEntries env.advanceLight.committedEntries

/-- Steps 6 to 9. -/
def hrStage6 (env : HrEnv) (ready : ReadyM) : List HrStep × Option HrAbort :=
  hrChain (hrSendSeg env HrStep.sendPersistedMessages ready.persistedMessages) fun _ =>
  hrStage7 env

/-- Steps 5 to 9. -/
def hrStage5 (env : HrEnv) (ready : ReadyM) : List HrStep × Option HrAbort :=
  hrChain (hrPersistSeg env ready.hardState) fun _ =>
  hrStage6 env ready

/-- Steps 4 to 9. -/
def hrStage4 (env : HrEnv) (ready : ReadyM) : List HrStep × Option HrAbort :=
  hrChain (hrAppendSeg env ready.entries) fun _ =>
  hrStage5 env ready

/-- Steps 3 to 9. -/
def hrStage3 (env : HrEnv) (ready : ReadyM) : List HrStep × Option HrAbort :=
  hrChain (hrApplySeg env HrStep.applyCommittedEntries ready.committedEntries) fun _ =>
  hrStage4 env ready

/-- Steps 2 to 9. -/
def hrStage2 (env : HrEnv) (ready : ReadyM) : List HrStep × Option HrAbort :=
  hrChain (hrSnapshotSeg ready) fun _ =>
  hrStage3 env ready

/-- Steps 1 to 9. -/
def hrStage1 (env : HrEnv) (ready : ReadyM) : List HrStep × Option HrAbort :=
  hrChain (hrSendSeg env HrStep.sendReadyMessages ready.messages) fun _ =>
  hrStage2 env ready

/-- Shallow embedding of `RaftWorker::handle_ready`: the straight-line sequence
of steps 0 (update soft state) through 9 (apply light-ready committed
entries), in source order, with each fallible step aborting the rest.
Metrics observation is omitted. -/
def handleReady (env : HrEnv) (ready : ReadyM) : List HrStep × Option HrAbort :=
  hrChain (hrSoftSeg ready) fun _ =>
  hrStage1 env ready

/-- The step order `handle_ready` is specified to follow. -/
def hrCanonicalOrder : List HrStep :=
  [HrStep.updateSoftState, HrStep.sendReadyMessages, HrStep.applySnapshot,
    HrStep.applyCommittedEntries, HrStep.appendEntries, HrStep.persistHardState,
    HrStep.sendPersistedMessages, HrStep.advanceRaft, HrStep.sendLightMessages,
    HrStep.applyLightCommittedEntries]

theorem hrChain_sublist_cons {a : List HrStep × Option HrAbort}
    {k : Unit → List HrStep × Option HrAbort} {t : HrStep} {c2 : List HrStep}
    (h1 : List.Sublist a.1 [t]) (h2 : List.Sublist (k ()).1 c2) : List.Sublist (hrChain a k).1 (t :: c2) := by
  unfold hrChain
  cases h : a.2 with
  | none =>
    simpa using List.Sublist.append h1 h2
  | some ab =>
    simp only
    exact h1.trans (List.sublist_append_left [t] c2)

theorem hrSoftSeg_sublist (ready : ReadyM) : List.Sublist (hrSoftSeg ready).1 [HrStep.updateSoftState] := by
  unfold hrSoftSeg
  cases ready.softState <;> simp

theorem hrSendSeg_sublist (env : HrEnv) (tag : HrStep) (msgs : List RMsg) :
    List.Sublist (hrSendSeg env tag msgs).1 [tag] := by
  unfold hrSendSeg
  by_cases h : msgs.isEmpty
  · simp [h]
  · cases henv : env.sendRes msgs <;> simp [h, henv]

theorem hrSnapshotSeg_sublist (ready : ReadyM) :
    List.Sublist (hrSnapshotSeg ready).1 [HrStep.applySnapshot] := by
  unfold hrSnapshotSeg
  cases ready.snapshot with
  | none => simp
  | some s => simp [applySnapshotModel]

theorem hrApplySeg_sublist (env : HrEnv) (tag : HrStep) (entries : List REntry) :
    List.Sublist (hrApplySeg env tag entries).1 [tag] := by
  unfold hrApplySeg
  cases henv : env.applyRes entries <;> simp

theorem hrAppendSeg_sublist (env : HrEnv) (entries : List REntry) :
    List.Sublist (hrAppendSeg env entries).1 [HrStep.appendEntries] := by
  unfold hrAppendSeg
  by_cases h : entries.isEmpty
  · simp [h]
  · cases henv : env.appendRes entries <;> simp [h, henv]

theorem hrPersistSeg_sublist (env : HrEnv) (hs : Option HardStateM) :
    List.Sublist (hrPersistSeg env hs).1 [HrStep.persistHardState] := by
  unfold hrPersistSeg
  cases hs with
  | none => simp
  | some h => cases henv : env.persistRes h <;> simp [henv]

theorem handleReady_sublist (env : HrEnv) (ready : ReadyM) :
    List.Sublist (handleReady env ready).1 hrCanonicalOrder := by
  unfold handleReady hrStage1 hrStage2 hrStage3 hrStage4 hrStage5 hrStage6 hrStage7
    hrCanonicalOrder
  exact hrChain_sublist_cons (hrSoftSeg_sublist ready)
    (hrChain_sublist_cons (hrSendSeg_sublist env _ _)
      (hrChain_sublist_cons (hrSnapshotSeg_sublist ready)
        (hrChain_sublist_cons (hrApplySeg_sublist env _ _)
          (hrChain_sublist_cons (hrAppendSeg_sublist env _)
            (hrChain_sublist_cons (hrPersistSeg_sublist env _)
              (hrChain_sublist_cons (hrSendSeg_sublist env _ _)
                (hrChain_sublist_cons (by simp)
                  (hrChain_sublist_cons (hrSendSeg_sublist env _ _)
                    (hrApplySeg_sublist env _ _)))))))))

theorem pair_sublist_of_get {α : Type} {l : List α} {i j : Fin l.length}
    (hij : (i : Nat) < j) : List.Sublist [l.get i, l.get j] l := by
  have hdrop : l.drop (i : Nat) = l.get i :: l.drop ((i : Nat) + 1) := by
    rw [List.get_eq_getElem]
    exact List.drop_eq_getElem_cons i.isLt
  have hj2 : (j : Nat) - ((i : Nat) + 1) < (l.drop ((i : Nat) + 1)).length := by
    rw [List.length_drop]
    have := j.isLt
    omega
  have hmem : l.get j ∈ l.drop ((i : Nat) + 1) := by
    have : (l.drop ((i : Nat) + 1))[(j : Nat) - ((i : Nat) + 1)] = l.get j := by
      rw [List.getElem_drop, List.get_eq_getElem]
      congr 1
      omega
    rw [← this]
    exact List.getElem_mem _
  have h1 : List.Sublist [l.get i, l.get j] (l.get i :: l.drop ((i : Nat) + 1)) :=
    List.Sublist.cons₂ _ (List.singleton_sublist.mpr hmem)
  have h2 : List.Sublist (l.get i :: l.drop ((i : Nat) + 1)) l := by
    rw [← hdrop]
    exact List.drop_sublist _ _
  exact h1.trans h2

theorem get_order_of_sublist {α : Type} [DecidableEq α] {l c : List α} (h : List.Sublist l c)
    {i j : Fin l.length} {a b : α} (ha : l.get i = a) (hb : l.get j = b)
    (hab : a ≠ b) (hpair : ¬ List.Sublist [b, a] c) : (i : Nat) < j := by
  rcases lt_trichotomy (i : Nat) (j : Nat) with hlt | heq | hgt
  · exact hlt
  · exfalso
    apply hab
    rw [← ha, ← hb]
    congr 1
    exact Fin.ext heq
  · exfalso
    apply hpair
    have := pair_sublist_of_get (l := l) (i := j) (j := i) hgt
    rw [ha, hb] at this
    exact this.trans h

theorem mem_hrChain {x : HrStep} {a : List HrStep × Option HrAbort}
    {k : Unit → List HrStep × Option HrAbort} :
    x ∈ (hrChain a k).1 ↔ x ∈ a.1 ∨ (a.2 = none ∧ x ∈ (k ()).1) := by
  unfold hrChain
  cases h : a.2 <;> simp [h]

theorem mem_hrSendSeg {x : HrStep} {env : HrEnv} {tag : HrStep} {msgs : List RMsg}
    (h : x ∈ (hrSendSeg env tag msgs).1) : x = tag := by
  unfold hrSendSeg at h
  by_cases hemp : msgs.isEmpty
  · simp [hemp] at h
  · cases henv : env.sendRes msgs <;> simp [hemp, henv] at h <;> exact h

theorem mem_hrSoftSeg {x : HrStep} {ready : ReadyM}
    (h : x ∈ (hrSoftSeg ready).1) : x = HrStep.updateSoftState := by
  unfold hrSoftSeg at h
  cases hss : ready.softState <;> rw [hss] at h <;> simp at h
  exact h

theorem mem_hrSnapshotSeg {x : HrStep} {ready : ReadyM}
    (h : x ∈ (hrSnapshotSeg ready).1) : x = HrStep.applySnapshot := by
  unfold hrSnapshotSeg at h
  cases hss : ready.snapshot with
  | none => rw [hss] at h; simp at h
  | some s =>
    rw [hss] at h
    simp [applySnapshotModel] at h
    exact h

theorem mem_hrApplySeg {x : HrStep} {env : HrEnv} {tag : HrStep} {entries : List REntry}
    (h : x ∈ (hrApplySeg env tag entries).1) : x = tag := by
  unfold hrApplySeg at h
  cases henv : env.applyRes entries <;> simp [henv] at h <;> exact h

theorem mem_hrAppendSeg {x : HrStep} {env : HrEnv} {entries : List REntry}
    (h : x ∈ (hrAppendSeg env entries).1) : x = HrStep.appendEntries := by
  unfold hrAppendSeg at h
  by_cases hemp : entries.isEmpty
  · simp [hemp] at h
  · cases henv : env.appendRes entries <;> simp [hemp, henv] at h <;> exact h

theorem mem_hrPersistSeg {x : HrStep} {env : HrEnv} {hs : Option HardStateM}
    (h : x ∈ (hrPersistSeg env hs).1) : x = HrStep.persistHardState := by
  unfold hrPersistSeg at h
  cases hs with
  | none => simp at h
  | some hh => cases henv : env.persistRes hh <;> simp [henv] at h <;> exact h

/-- C2: `handle_ready` performs its calls in exactly the specified order: its
trace is always a subsequence of the canonical step sequence (cached soft
state update, ready messages, snapshot, committed entries, entry append,
HardState persistence, persisted messages, advance, light-ready messages,
light-ready committed entries); in every execution, every HardState
persistence precedes every send of persisted messages, and whenever persisted
messages are sent while a HardState was present, the HardState was persisted
earlier in the same execution. -/
theorem handleReady_step_order (env : HrEnv) (ready : ReadyM) :
    List.Sublist (handleReady env ready).1 hrCanonicalOrder ∧
      (∀ i j : Fin (handleReady env ready).1.length,
        (handleReady env ready).1.get i = HrStep.persistHardState →
        (handleReady env ready).1.get j = HrStep.sendPersistedMessages →
        (i : Nat) < j) ∧
      (∀ hs, ready.hardState = some hs →
        HrStep.sendPersistedMessages ∈ (handleReady env ready).1 →
        HrStep.persistHardState ∈ (handleReady env ready).1) := by
  refine ⟨handleReady_sublist env ready, ?_, ?_⟩
  · intro i j hi hj
    exact get_order_of_sublist (handleReady_sublist env ready) hi hj (by decide) (by decide)
  · intro hs hhs hmem
    unfold handleReady at hmem
    rcases mem_hrChain.mp hmem with h0 | ⟨hok0, h1⟩
    · exact absurd (mem_hrSoftSeg h0) (by decide)
    unfold hrStage1 at h1
    rcases mem_hrChain.mp h1 with hseg | ⟨hok1, h2⟩
    · exact absurd (mem_hrSendSeg hseg) (by decide)
    unfold hrStage2 at h2
    rcases mem_hrChain.mp h2 with hseg | ⟨hok2, h3⟩
    · exact absurd (mem_hrSnapshotSeg hseg) (by decide)
    unfold hrStage3 at h3
    rcases mem_hrChain.mp h3 with hseg | ⟨hok3, h4⟩
    · exact absurd (mem_hrApplySeg hseg) (by decide)
    unfold hrStage4 at h4
    rcases mem_hrChain.mp h4 with hseg | ⟨hok4, h5⟩
    · exact absurd (mem_hrAppendSeg hseg) (by decide)
    unfold hrStage5 at h5
    rcases mem_hrChain.mp h5 with hseg | ⟨hok5, _⟩
    · exact absurd (mem_hrPersistSeg hseg) (by decide)
    -- the persist segment completed; with a HardState present its trace is the
    -- persist step itself
    have hpseg : (hrPersistSeg env ready.hardState).1 = [HrStep.persistHardState] := by
      rw [hhs]
      unfold hrPersistSeg
      cases henv : env.persistRes hs with
      | ok _ => simp [henv]
      | error e =>
        exfalso
        rw [hhs] at hok5
        unfold hrPersistSeg at hok5
        simp [henv] at hok5
    have hmem5 : HrStep.persistHardState ∈ (hrStage5 env ready).1 := by
      unfold hrStage5
      exact mem_hrChain.mpr (Or.inl (by rw [hpseg]; exact List.mem_singleton.mpr rfl))
    have hmem4 : HrStep.persistHardState ∈ (hrStage4 env ready).1 := by
      unfold hrStage4
      exact mem_hrChain.mpr (Or.inr ⟨hok4, hmem5⟩)
    have hmem3 : HrStep.persistHardState ∈ (hrStage3 env ready).1 := by
      unfold hrStage3
      exact mem_hrChain.mpr (Or.inr ⟨hok3, hmem4⟩)
    have hmem2 : HrStep.persistHardState ∈ (hrStage2 env ready).1 := by
      unfold hrStage2
      exact mem_hrChain.mpr (Or.inr ⟨hok2, hmem3⟩)
    have hmem1 : HrStep.persistHardState ∈ (hrStage1 env ready).1 := by
      unfold hrStage1
      exact mem_hrChain.mpr (Or.inr ⟨hok1, hmem2⟩)
    unfold handleReady
    exact mem_hrChain.mpr (Or.inr ⟨hok0, hmem1⟩)

/-- An everything-succeeds environment for handle_ready witnesses. -/
def hrEnvOk : HrEnv :=
  { sendRes := fun _ => Except.ok (),
    applyRes := fun _ => Except.ok (),
    appendRes := fun _ => Except.ok (),
    persistRes := fun _ => Except.ok (),
    advanceLight := { messages := [⟨2, 9⟩], committedEntries := [] } }

/-- A ready with every component present except the snapshot. -/
def readyFull : ReadyM :=
  { softState := some ⟨1, true⟩,
    messages := [⟨2, 1⟩],
    snapshot := none,
    committedEntries := [⟨1, 1, [1], []⟩],
    entries := [⟨1, 2, [2], []⟩],
    hardState := some ⟨1, 1, 2⟩,
    persistedMessages := [⟨3, 4⟩],
    }

/-- Witness for C2 at a concrete input: a full ready packet, all calls succeed;
the trace contains persistHardState at position 4 and sendPersistedMessages at
position 5. -/
theorem handleReady_step_order_witness :
    List.Sublist (handleReady hrEnvOk readyFull).1 hrCanonicalOrder ∧ (4 : Nat) < 5 ∧
      HrStep.persistHardState ∈ (handleReady hrEnvOk readyFull).1 :=
  ⟨(handleReady_step_order hrEnvOk readyFull).1,
    (handleReady_step_order hrEnvOk readyFull).2.1 ⟨4, by decide⟩ ⟨5, by decide⟩
      (by decide) (by decide),
    (handleReady_step_order hrEnvOk readyFull).2.2 ⟨1, 1, 2⟩ rfl (by decide)⟩

/-- A ready packet carrying a non-empty snapshot. -/
def readyWithSnapshot : ReadyM :=
  { softState := none,
    messages := [],
    snapshot := some ⟨3, [7]⟩,
    committedEntries := [],
    entries := [],
    hardState := none,
    persistedMessages := [] }

/-- C7 (code bug): the spec demands that `apply_snapshot` persist the snapshot
via the log store and install it via the FSM, then return normally so
committed entries can be applied; the source's `apply_snapshot` body is
`todo!()`, so on any ready with a non-empty snapshot the call panics and
`handle_ready` aborts: nothing is persisted, installed, or applied. -/
theorem apply_snapshot_panics :
    applySnapshotModel ⟨3, [7]⟩ = SnapshotApplyOutcome.panicked ∧
      (handleReady hrEnvOk readyWithSnapshot).2 = some HrAbort.panicked ∧
      HrStep.applyCommittedEntries ∉ (handleReady hrEnvOk readyWithSnapshot).1 :=
  ⟨rfl, by decide, by decide⟩

/-! ## Compaction (src/exhauster/src/service.rs, Exhauster::compaction)

User keys are an abstract linearly ordered type `K`, values an abstract type
`V`; an entry is the `(user_key, sequence, value)` triple the loop reads from
the merge iterator via `user_key(iter.key())`, `sequence(iter.key())`,
`value(iter.value())`. -/

/-- One `(user_key, sequence, value)` entry. -/
structure KvEntry (K V : Type) where
  userKey : K
  seq : Nat
  value : V
deriving DecidableEq

/-- An entry tagged with its input iterator index and its position inside that
input, used to define the merge order. -/
structure TaggedEntry (K V : Type) where
  entry : KvEntry K V
  srcIdx : Nat
  srcPos : Nat

/-- Modelled from the spec: the merge iterator's ordering, internal-key order
(user_key ascending, sequence descending), ties broken by input index
ascending; position within one input breaks the remaining ties, which
preserves each sorted input's own order. -/
def taggedBefore {K V : Type} [LinearOrder K] (a b : TaggedEntry K V) : Prop :=
  a.entry.userKey < b.entry.userKey ∨
    (a.entry.userKey = b.entry.userKey ∧ (b.entry.seq < a.entry.seq ∨
      (a.entry.seq = b.entry.seq ∧ (a.srcIdx < b.srcIdx ∨
        (a.srcIdx = b.srcIdx ∧ a.srcPos ≤ b.srcPos)))))

instance {K V : Type} [LinearOrder K] : DecidableRel (taggedBefore (K := K) (V := V)) :=
  fun a b => by
    unfold taggedBefore
    infer_instance

instance {K V : Type} [LinearOrder K] : IsTotal (TaggedEntry K V) taggedBefore := by
  constructor
  intro a b
  unfold taggedBefore
  rcases lt_trichotomy a.entry.userKey b.entry.userKey with h | h | h
  · exact Or.inl (Or.inl h)
  · rcases Nat.lt_trichotomy a.entry.seq b.entry.seq with h2 | h2 | h2
    · exact Or.inr (Or.inr ⟨h.symm, Or.inl h2⟩)
    · rcases Nat.lt_trichotomy a.srcIdx b.srcIdx with h3 | h3 | h3
      · exact Or.inl (Or.inr ⟨h, Or.inr ⟨h2, Or.inl h3⟩⟩)
      · rcases Nat.le_total a.srcPos b.srcPos with h4 | h4
        · exact Or.inl (Or.inr ⟨h, Or.inr ⟨h2, Or.inr ⟨h3, h4⟩⟩⟩)
        · exact Or.inr (Or.inr ⟨h.symm, Or.inr ⟨h2.symm, Or.inr ⟨h3.symm, h4⟩⟩⟩)
      · exact Or.inr (Or.inr ⟨h.symm, Or.inr ⟨h2.symm, Or.inl h3⟩⟩)
    · exact Or.inl (Or.inr ⟨h, Or.inl h2⟩)
  · exact Or.inr (Or.inl h)

instance {K V : Type} [LinearOrder K] : IsTrans (TaggedEntry K V) taggedBefore := by
  constructor
  intro a b c hab hbc
  unfold taggedBefore at hab hbc
  unfold taggedBefore
  rcases hab with h1 | ⟨h1, hr1⟩
  · rcases hbc with h2 | ⟨h2, _⟩
    · exact Or.inl (lt_trans h1 h2)
    · exact Or.inl (h2 ▸ h1)
  · rcases hbc with h2 | ⟨h2, hr2⟩
    · exact Or.inl (lt_of_le_of_lt (le_of_eq h1) h2)
    · refine Or.inr ⟨h1.trans h2, ?_⟩
      omega

/-- Tags every entry of every input table with its input index and its position
inside that input. -/
def tagTables {K V : Type} (tables : List (List (KvEntry K V))) : List (TaggedEntry K V) :=
  (tables.enum.map (fun ti => ti.2.enum.map (fun ei => TaggedEntry.mk ei.2 ti.1 ei.1))).flatten

/-- Modelled from the spec: the `MergeIterator` (its source, in src/storage, is
not part of the snapshot) merges the sorted input tables into one stream in
internal-key order (user_key ascending, sequence descending), ties broken by
input index ascending.  For sorted inputs the k-way merge coincides with a
stable sort of the tagged concatenation by `taggedBefore`. -/
def mergeStreams {K V : Type} [LinearOrder K] (tables : List (List (KvEntry K V))) :
    List (KvEntry K V) :=
  (List.insertionSort taggedBefore (tagTables tables)).map (fun t => t.entry)

/-- The user keys of the merged stream are ascending. -/
theorem mergeStreams_keys_sorted {K V : Type} [LinearOrder K]
    (tables : List (List (KvEntry K V))) :
    List.Sorted (· ≤ ·) ((mergeStreams tables).map (fun e => e.userKey)) := by
  have hs : List.Sorted taggedBefore (List.insertionSort taggedBefore (tagTables tables)) :=
    List.sorted_insertionSort _ _
  unfold mergeStreams
  rw [List.map_map]
  refine List.Pairwise.map _ ?_ hs
  intro a b hab
  rcases hab with h | ⟨h, _⟩
  · exact le_of_lt h
  · exact le_of_eq h

/-- The compression algorithms of the request, per the spec's interface
(`enum{None, Lz4, Zstd}`); the request carries a valid value by typing, so the
`CompressionAlgorithm::try_from` conversion at the RPC boundary is outside
this embedding. -/
inductive CompressionAlg
  | NoCompression
  | Lz4
  | Zstd
deriving DecidableEq

/-- The `CompactionRequest` fields the service reads
(`bloom_false_positive : f64` is omitted: floating point, and it only feeds
the abstract builder). -/
structure CompactionRequest (K : Type) where
  sstIds : List Nat
  sstableCapacity : Nat
  blockCapacity : Nat
  restartInterval : Nat
  compressionAlgorithm : CompressionAlg
  watermark : Nat
  removeTombstone : Bool
  partitionPoints : List K
deriving DecidableEq

/-- `SstableInfo { id, data_size }`. -/
structure SstableInfo where
  id : Nat
  dataSize : Nat
deriving DecidableEq

/-- `CompactionResponse { old_sst_infos, new_sst_infos }`. -/
structure CompactionResponse where
  oldSstInfos : List SstableInfo
  newSstInfos : List SstableInfo
deriving DecidableEq

/-- A tonic `Status` as far as this service produces them: a code and a
message. -/
inductive GStatusCode
  | okCode
  | internalCode
deriving DecidableEq

structure GStatus where
  code : GStatusCode
  message : String
deriving DecidableEq

/-- Shallow embedding of the free function `internal` in
src/exhauster/src/service.rs: `Status::internal(e.to_string())`; errors are
modelled as their message strings. -/
def internal (e : String) : GStatus :=
  { code := GStatusCode.internalCode, message := e }

/-- The capabilities `Exhauster::compaction` uses whose sources are not part of
the snapshot, as capability objects (the spec's design):
`fetch` is `sstable_store.sstable(id)` returning the table's entries and its
`data_size()`; `mkFilter`/`filter` are `DefaultCompactionFilter::new`/`filter`
with explicit filter state `FS`; `mkPartitioner`/`partition` are the
partitioner chosen from the partition points, with state `PS`; `approxLen` is
`SstableBuilder::approximate_len` as a function of the entries added so far;
`upload` is `build_and_upload_sst` (build + `sstable_store.put`), returning
the built table's `data_size` or failing. -/
structure CompactionEnv (K V FS PS : Type) where
  fetch : Nat → Except String (List (KvEntry K V) × Nat)
  mkFilter : Nat → Bool → FS
  mkPartitioner : List K → PS
  filter : FS → K → V → Nat → Bool × FS
  partition : PS → K → V → Nat → Bool × PS
  approxLen : List (KvEntry K V) → Nat
  upload : Nat → List (KvEntry K V) → Except String Nat

/-- The mutable locals of the compaction loop: the id counter
(`sstable_sequential_id`), the current `sst_id`, the open builder (entries
added so far, in order), `last_user_key` (`None` models the initial
`vec![]`, which no key added so far equals because the builder is then
empty), and the filter/partitioner states. -/
structure CompactionState (K V FS PS : Type) where
  ctr : Nat
  sstId : Nat
  builder : Option (List (KvEntry K V))
  lastUserKey : Option K
  fs : FS
  ps : PS

/-- The first loop of `Exhauster::compaction`: fetch every input SST, failing on
the first error, and collect `old_sst_infos` and the tables. -/
def fetchOldInfos {K V FS PS : Type} (env : CompactionEnv K V FS PS) :
    List Nat → Except String (List SstableInfo × List (List (KvEntry K V)))
  | [] => Except.ok ([], [])
  | id :: ids =>
    match env.fetch id with
    | Except.error e => Except.error e
    | Except.ok (entries, dsize) =>
      match fetchOldInfos env ids with
      | Except.error e => Except.error e
      | Except.ok (infos, tables) =>
        Except.ok (SstableInfo.mk id dsize :: infos, entries :: tables)

/-- Allocation of a fresh builder with a fresh SST id:
`sst_id = self.gen_sstable_id(); sstable_builder = Some(SstableBuilder::new(..))`. -/
def allocBuilder {K V FS PS : Type} (node : Nat) (st : CompactionState K V FS PS) :
    CompactionState K V FS PS :=
  { st with
      sstId := genSstableId node st.ctr
      ctr := nextSequentialId st.ctr
      builder := some [] }

/-- The body of the while loop of `Exhauster::compaction` for the current entry
`e`, given the current builder contents `b` (the open builder is `some b`
after the allocation step), folding in the extra pass that `continue`
performs after a cut: the cut takes the builder, so the re-entered iteration
allocates a fresh builder (fresh `gen_sstable_id`), whose emptiness defeats
the cut condition, and falls through to the filter on the same entry.  The
cut condition mirrors the source's short-circuit order: the partitioner is
consulted (and its state advanced) only when the builder is non-empty, the
key differs from `last_user_key`, and `approximate_len` has not reached the
capacity.  The filter is called exactly once per entry and its state
advances whether or not the entry is kept.  Returns the state after the
entry together with the SSTs uploaded while handling it (as
`(sst_id, entries)`) and the `new_sst_infos` pushed, or the first error. -/
def compactionBody {K V FS PS : Type} [DecidableEq K] (env : CompactionEnv K V FS PS)
    (node capacity : Nat) (e : KvEntry K V) (st1 : CompactionState K V FS PS)
    (b : List (KvEntry K V)) :
    Except String
      (CompactionState K V FS PS × List (Nat × List (KvEntry K V)) × List SstableInfo) :=
  let pcut : Bool × PS :=
    if b.isEmpty then (false, st1.ps)
    else if some e.userKey = st1.lastUserKey then (false, st1.ps)
    else if capacity ≤ env.approxLen b then (true, st1.ps)
    else env.partition st1.ps e.userKey e.value e.seq
  let st2 := { st1 with ps := pcut.2 }
  if pcut.1 then
    match env.upload st2.sstId b with
    | Except.error er => Except.error er
    | Except.ok size =>
      let st3 := allocBuilder node st2
      let fr := env.filter st3.fs e.userKey e.value e.seq
      let st4 :=
        if fr.1 then
          { st3 with builder := some [e], lastUserKey := some e.userKey, fs := fr.2 }
        else { st3 with fs := fr.2 }
      Except.ok (st4, [(st2.sstId, b)], [SstableInfo.mk st2.sstId size])
  else
    let fr := env.filter st2.fs e.userKey e.value e.seq
    let st4 :=
      if fr.1 then
        { st2 with builder := some (b ++ [e]), lastUserKey := some e.userKey, fs := fr.2 }
      else { st2 with fs := fr.2 }
    Except.ok (st4, [], [])

/-- The while loop of `Exhauster::compaction`, one entry per recursive call:
allocate a builder if none is open (`if sstable_builder.is_none()`), then run
the loop body on the current entry.  Accumulators: `ups` records each
uploaded SST as `(sst_id, entries)`, `infos` the `new_sst_infos` pushed so
far; both are returned even when an error aborts the loop. -/
def compactionLoop {K V FS PS : Type} [DecidableEq K] (env : CompactionEnv K V FS PS)
    (node capacity : Nat) :
    List (KvEntry K V) → CompactionState K V FS PS →
    List (Nat × List (KvEntry K V)) → List SstableInfo →
    List (Nat × List (KvEntry K V)) × Except String (CompactionState K V FS PS × List SstableInfo)
  | [], st, ups, infos => (ups, Except.ok (st, infos))
  | e :: rest, st, ups, infos =>
    let step := match st.builder with
      | some b => compactionBody env node capacity e st b
      | none => compactionBody env node capacity e (allocBuilder node st) []
    match step with
    | Except.error er => (ups, Except.error er)
    | Except.ok (st4, dups, dinfos) =>
      compactionLoop env node capacity rest st4 (ups ++ dups) (infos ++ dinfos)

/-- The loop locals as initialized before the `while` loop of
`Exhauster::compaction`: `sst_id = 0`, no open builder, `last_user_key`
empty, the filter seeded with `(watermark, remove_tombstone)`, the
partitioner built from `partition_points`. -/
def initialState {K V FS PS : Type} (env : CompactionEnv K V FS PS) (ctr0 : Nat)
    (req : CompactionRequest K) : CompactionState K V FS PS :=
  { ctr := ctr0, sstId := 0, builder := none, lastUserKey := none,
    fs := env.mkFilter req.watermark req.removeTombstone,
    ps := env.mkPartitioner req.partitionPoints }

/-- Shallow embedding of `Exhauster::compaction`.  `node` is
`options.node_id`, `ctr0` the current `sstable_sequential_id`.  Returns the
list of uploaded SSTs (even on failure: uploads that happened before an
error stay uploaded) together with the RPC result: on any failure the error
is mapped through `internal`; on success the response carries
`old_sst_infos` and `new_sst_infos`.  After the loop, a still-open builder is
built and uploaded (the `if let Some(builder) = sstable_builder.take()`
flush). -/
def compaction {K V FS PS : Type} [DecidableEq K] [LinearOrder K]
    (env : CompactionEnv K V FS PS) (node ctr0 : Nat) (req : CompactionRequest K) :
    List (Nat × List (KvEntry K V)) × Except GStatus CompactionResponse :=
  match fetchOldInfos env req.sstIds with
  | Except.error e => ([], Except.error (internal e))
  | Except.ok (oldInfos, tables) =>
    let stream := mergeStreams tables
    match compactionLoop env node req.sstableCapacity stream (initialState env ctr0 req) [] [] with
    | (ups, Except.error e) => (ups, Except.error (internal e))
    | (ups, Except.ok (stF, newInfos)) =>
      match stF.builder with
      | none => (ups, Except.ok { oldSstInfos := oldInfos, newSstInfos := newInfos })
      | some b =>
        match env.upload stF.sstId b with
        | Except.error e => (ups, Except.error (internal e))
        | Except.ok size =>
          (ups ++ [(stF.sstId, b)],
            Except.ok
              { oldSstInfos := oldInfos
                newSstInfos := newInfos ++ [SstableInfo.mk stF.sstId size] })

/-- The entries the compaction filter keeps, replaying the filter state over a
stream exactly as the loop does (one `filter` call per entry, in order). -/
def survivingEntries {K V FS PS : Type} (env : CompactionEnv K V FS PS) :
    FS → List (KvEntry K V) → List (KvEntry K V)
  | _, [] => []
  | fs, e :: rest =>
    let fr := env.filter fs e.userKey e.value e.seq
    (if fr.1 then [e] else []) ++ survivingEntries env fr.2 rest

/-- The surviving entries of a whole compaction request: the filter, seeded
with `(watermark, remove_tombstone)`, replayed over the merged stream of the
fetched input tables. -/
def compactionSurvivors {K V FS PS : Type} [LinearOrder K] (env : CompactionEnv K V FS PS)
    (req : CompactionRequest K) : List (KvEntry K V) :=
  match fetchOldInfos env req.sstIds with
  | Except.error _ => []
  | Except.ok (_, tables) =>
    survivingEntries env (env.mkFilter req.watermark req.removeTombstone)
      (mergeStreams tables)

/-- The user keys of a builder or uploaded SST. -/
def entryKeys {K V : Type} (l : List (KvEntry K V)) : List K :=
  l.map (fun e => e.userKey)

/-- Key-disjointness of two uploaded SSTs. -/
def disjChunk {K V : Type} (u v : Nat × List (KvEntry K V)) : Prop :=
  ∀ k, k ∈ entryKeys u.2 → k ∉ entryKeys v.2

theorem sorted_mem_head_eq {K : Type} [LinearOrder K] {k0 : K} {ks : List K}
    (hs : List.Sorted (· ≤ ·) (k0 :: ks)) (hm : k0 ∈ ks) : ks.head? = some k0 := by
  cases ks with
  | nil => cases hm
  | cons k1 kt =>
    have h01 : k0 ≤ k1 := (List.sorted_cons.mp hs).1 k1 (by simp)
    have h1k : k1 ≤ k0 := by
      rcases List.mem_cons.mp hm with h | h
      · exact le_of_eq h.symm
      · exact (List.sorted_cons.mp (List.sorted_cons.mp hs).2).1 k0 h
    simp [le_antisymm h1k h01]

/-- Stepping the last-kept-key invariant from a stream to its tail. -/
theorem lastKey_head_step {K V : Type} [LinearOrder K] {e : KvEntry K V}
    {rest : List (KvEntry K V)} {lastUK : Option K}
    (h5 : ∀ lk, lastUK = some lk → lk ∈ (e :: rest).map (fun x => x.userKey) →
      ((e :: rest).map (fun x => x.userKey)).head? = some lk)
    (hrestHead : ∀ lk, e.userKey = lk → lk ∈ rest.map (fun x => x.userKey) →
      (rest.map (fun x => x.userKey)).head? = some lk) :
    ∀ lk, lastUK = some lk → lk ∈ rest.map (fun x => x.userKey) →
      (rest.map (fun x => x.userKey)).head? = some lk := by
  intro lk hlk hm
  have hh := h5 lk hlk (by simp [hm])
  rw [List.map_cons, List.head?_cons, Option.some.injEq] at hh
  exact hrestHead lk hh hm

/-- A case analysis of one loop body run: the filter state always advances by
one `filter` call; the pushed info ids are the uploaded ids; and either no cut
happened (nothing uploaded, the entry appended to the builder or dropped), or
a cut happened (the non-empty builder with a key different from
`last_user_key` was uploaded under the current `sst_id`, and the entry went
into the fresh builder or was dropped). -/
theorem compactionBody_spec {K V FS PS : Type} [DecidableEq K]
    (env : CompactionEnv K V FS PS) (node capacity : Nat) (e : KvEntry K V)
    (st1 : CompactionState K V FS PS) (b : List (KvEntry K V))
    (hb1 : st1.builder = some b)
    {st4 : CompactionState K V FS PS} {dups : List (Nat × List (KvEntry K V))}
    {dinfos : List SstableInfo}
    (h : compactionBody env node capacity e st1 b = Except.ok (st4, dups, dinfos)) :
    st4.fs = (env.filter st1.fs e.userKey e.value e.seq).2 ∧
    dinfos.map (fun i => i.id) = dups.map (fun u => u.1) ∧
    ((dups = [] ∧
       ((env.filter st1.fs e.userKey e.value e.seq).1 = true ∧
          st4.builder = some (b ++ [e]) ∧ st4.lastUserKey = some e.userKey ∨
        (env.filter st1.fs e.userKey e.value e.seq).1 = false ∧
          st4.builder = some b ∧ st4.lastUserKey = st1.lastUserKey)) ∨
     (dups = [(st1.sstId, b)] ∧ b ≠ [] ∧ ¬ (some e.userKey = st1.lastUserKey) ∧
       ((env.filter st1.fs e.userKey e.value e.seq).1 = true ∧
          st4.builder = some [e] ∧ st4.lastUserKey = some e.userKey ∨
        (env.filter st1.fs e.userKey e.value e.seq).1 = false ∧
          st4.builder = some [] ∧ st4.lastUserKey = st1.lastUserKey))) := by
  unfold compactionBody at h
  by_cases hbe : b.isEmpty
  · simp only [hbe, if_true] at h
    rcases hkeep : (env.filter st1.fs e.userKey e.value e.seq).1 with _ | _ <;>
      simp [hkeep, Prod.mk.injEq] at h <;>
      obtain ⟨h4, hdu, hdi⟩ := h <;>
      subst h4 <;> subst hdu <;> subst hdi <;>
      simp [hkeep, hb1]
  · simp only [hbe, Bool.false_eq_true, if_false] at h
    have hbne : b ≠ [] := by
      intro hc
      subst hc
      simp at hbe
    by_cases hlast : (some e.userKey : Option K) = st1.lastUserKey
    · simp only [hlast, if_true] at h
      rcases hkeep : (env.filter st1.fs e.userKey e.value e.seq).1 with _ | _ <;>
        simp [hkeep, Prod.mk.injEq] at h <;>
        obtain ⟨h4, hdu, hdi⟩ := h <;>
        subst h4 <;> subst hdu <;> subst hdi <;>
        simp [hkeep, hb1, hlast.symm]
    · simp only [hlast, if_false] at h
      by_cases hcap : capacity ≤ env.approxLen b
      · simp only [hcap, if_true] at h
        rcases hupl : env.upload st1.sstId b with er | size <;> simp [hupl] at h
        rcases hkeep : (env.filter st1.fs e.userKey e.value e.seq).1 with _ | _ <;>
          simp [hkeep, allocBuilder, Prod.mk.injEq] at h <;>
          obtain ⟨h4, hdu, hdi⟩ := h <;>
          subst h4 <;> subst hdu <;> subst hdi <;>
          simp [hkeep, hbne, hlast, allocBuilder]
      · simp only [hcap, if_false] at h
        rcases hpc : (env.partition st1.ps e.userKey e.value e.seq).1 with _ | _
        · simp only [hpc, Bool.false_eq_true, if_false] at h
          rcases hkeep : (env.filter st1.fs e.userKey e.value e.seq).1 with _ | _ <;>
            simp [hkeep, Prod.mk.injEq] at h <;>
            obtain ⟨h4, hdu, hdi⟩ := h <;>
            subst h4 <;> subst hdu <;> subst hdi <;>
            simp [hkeep, hb1]
        · simp only [hpc, if_true] at h
          rcases hupl : env.upload st1.sstId b with er | size <;> simp [hupl] at h
          rcases hkeep : (env.filter st1.fs e.userKey e.value e.seq).1 with _ | _ <;>
            simp [hkeep, allocBuilder, Prod.mk.injEq] at h <;>
            obtain ⟨h4, hdu, hdi⟩ := h <;>
            subst h4 <;> subst hdu <;> subst hdi <;>
            simp [hkeep, hbne, hlast, allocBuilder]

/-- Main safety invariant of the compaction loop: on a successful run the
uploaded SSTs are pairwise key-disjoint and the still-open builder shares no
key with any of them. -/
theorem compactionLoop_disjoint {K V FS PS : Type} [LinearOrder K]
    (env : CompactionEnv K V FS PS) (node capacity : Nat) :
    ∀ (stream : List (KvEntry K V)) (st : CompactionState K V FS PS)
      (ups ups2 : List (Nat × List (KvEntry K V))) (infos infos2 : List SstableInfo)
      (stF : CompactionState K V FS PS),
      List.Sorted (· ≤ ·) (stream.map (fun x => x.userKey)) →
      ups.Pairwise disjChunk →
      (∀ bl, st.builder = some bl → ∀ u ∈ ups, ∀ k ∈ entryKeys bl, k ∉ entryKeys u.2) →
      (∀ u ∈ ups, ∀ k ∈ entryKeys u.2, k ∉ stream.map (fun x => x.userKey)) →
      (∀ bl, st.builder = some bl → ∀ k ∈ entryKeys bl,
        k ∈ stream.map (fun x => x.userKey) → st.lastUserKey = some k) →
      (∀ lk, st.lastUserKey = some lk → lk ∈ stream.map (fun x => x.userKey) →
        (stream.map (fun x => x.userKey)).head? = some lk) →
      compactionLoop env node capacity stream st ups infos = (ups2, Except.ok (stF, infos2)) →
      ups2.Pairwise disjChunk ∧
        (∀ bl, stF.builder = some bl → ∀ u ∈ ups2, ∀ k ∈ entryKeys bl, k ∉ entryKeys u.2) := by
  intro stream
  induction stream with
  | nil =>
    intro st ups ups2 infos infos2 stF _ h1 h2 _ _ _ hrun
    simp only [compactionLoop, Prod.mk.injEq, Except.ok.injEq] at hrun
    obtain ⟨hups, hst, _⟩ := hrun
    subst hups
    subst hst
    exact ⟨h1, h2⟩
  | cons e rest ih =>
    intro st ups ups2 infos infos2 stF hsorted h1 h2 h3 h4 h5 hrun
    have hsc := List.sorted_cons.mp (by rw [List.map_cons] at hsorted; exact hsorted)
    have hsorted2 : List.Sorted (· ≤ ·) (rest.map (fun x => x.userKey)) := hsc.2
    have hmemkey : e.userKey ∈ (e :: rest).map (fun x => x.userKey) := by simp
    have h3r : ∀ u ∈ ups, ∀ k ∈ entryKeys u.2, k ∉ rest.map (fun x => x.userKey) := by
      intro u hu k hk hmem
      exact h3 u hu k hk (by simp [hmem])
    have hukfresh : ∀ u ∈ ups, e.userKey ∉ entryKeys u.2 := by
      intro u hu hmem
      exact h3 u hu e.userKey hmem hmemkey
    have hrestHead : ∀ lk, e.userKey = lk → lk ∈ rest.map (fun x => x.userKey) →
        (rest.map (fun x => x.userKey)).head? = some lk := by
      intro lk heq hm
      subst heq
      exact sorted_mem_head_eq (by rw [List.map_cons] at hsorted; exact hsorted) hm
    have hB5gen : ∀ lk, st.lastUserKey = some lk → lk ∈ rest.map (fun x => x.userKey) →
        (rest.map (fun x => x.userKey)).head? = some lk :=
      lastKey_head_step h5 hrestHead
    rcases hb : st.builder with _ | bl
    · -- builder was None: allocate a fresh empty builder, no cut possible
      simp only [compactionLoop, hb] at hrun
      rcases hstep : compactionBody env node capacity e (allocBuilder node st) [] with
        er | ⟨st4, dups, dinfos⟩
      · simp [hstep] at hrun
      · simp only [hstep] at hrun
        obtain ⟨_, _, hcases⟩ := compactionBody_spec env node capacity e _ _ rfl hstep
        rcases hcases with ⟨hdup, harm⟩ | ⟨_, hbne, _, _⟩
        · subst hdup
          rw [List.append_nil] at hrun
          rcases harm with ⟨_, hbld, hlastk⟩ | ⟨_, hbld, hlastk⟩
          · -- kept: builder holds exactly the entry, last key is its key
            refine ih st4 ups ups2 _ infos2 stF hsorted2 h1 ?_ h3r ?_ ?_ hrun
            · intro bl2 hbl2 u hu k hk
              rw [hbld] at hbl2
              injection hbl2 with hbl2
              subst hbl2
              simp [entryKeys] at hk
              subst hk
              exact hukfresh u hu
            · intro bl2 hbl2 k hk _
              rw [hbld] at hbl2
              injection hbl2 with hbl2
              subst hbl2
              simp [entryKeys] at hk
              rw [hlastk, hk]
            · intro lk hlk hm
              rw [hlastk] at hlk
              injection hlk with hlk
              exact hrestHead lk hlk hm
          · -- dropped: builder empty, last key untouched
            have hlastk2 : st4.lastUserKey = st.lastUserKey := by
              rw [hlastk]
              rfl
            refine ih st4 ups ups2 _ infos2 stF hsorted2 h1 ?_ h3r ?_ ?_ hrun
            · intro bl2 hbl2 u hu k hk
              rw [hbld] at hbl2
              injection hbl2 with hbl2
              subst hbl2
              simp [entryKeys] at hk
            · intro bl2 hbl2 k hk _
              rw [hbld] at hbl2
              injection hbl2 with hbl2
              subst hbl2
              simp [entryKeys] at hk
            · intro lk hlk hm
              rw [hlastk2] at hlk
              exact hB5gen lk hlk hm
        · exact absurd rfl hbne
    · -- builder was Some bl
      simp only [compactionLoop, hb] at hrun
      rcases hstep : compactionBody env node capacity e st bl with er | ⟨st4, dups, dinfos⟩
      · simp [hstep] at hrun
      · simp only [hstep] at hrun
        obtain ⟨_, _, hcases⟩ := compactionBody_spec env node capacity e _ _ hb hstep
        have hB2 : ∀ u ∈ ups, ∀ k ∈ entryKeys bl, k ∉ entryKeys u.2 := h2 bl hb
        have hB4 : ∀ k ∈ entryKeys bl, k ∈ rest.map (fun x => x.userKey) →
            st.lastUserKey = some k := by
          intro k hk hm
          exact h4 bl hb k hk (by simp [hm])
        have hKeep2 : ∀ u ∈ ups, ∀ k ∈ entryKeys (bl ++ [e]), k ∉ entryKeys u.2 := by
          intro u hu k hk
          unfold entryKeys at hk
          rw [List.map_append, List.mem_append] at hk
          rcases hk with hk | hk
          · exact hB2 u hu k hk
          · simp only [List.map_cons, List.map_nil, List.mem_singleton] at hk
            exact fun hc => hukfresh u hu (hk ▸ hc)
        have hKeep4 : ∀ k ∈ entryKeys (bl ++ [e]), k ∈ rest.map (fun x => x.userKey) →
            e.userKey = k := by
          intro k hk hm
          unfold entryKeys at hk
          rw [List.map_append, List.mem_append] at hk
          rcases hk with hk | hk
          · have hlastk := hB4 k hk hm
            have hh := h5 k hlastk (by simp [hm])
            rw [List.map_cons, List.head?_cons, Option.some.injEq] at hh
            exact hh
          · simp only [List.map_cons, List.map_nil, List.mem_singleton] at hk
            exact hk.symm
        rcases hcases with ⟨hdup, harm⟩ | ⟨hdup, hbne, hlastne, harm⟩
        · subst hdup
          rw [List.append_nil] at hrun
          rcases harm with ⟨_, hbld, hlastk⟩ | ⟨_, hbld, hlastk⟩
          · -- no cut, entry kept
            refine ih st4 ups ups2 _ infos2 stF hsorted2 h1 ?_ h3r ?_ ?_ hrun
            · intro bl2 hbl2 u hu k hk
              rw [hbld] at hbl2
              injection hbl2 with hbl2
              subst hbl2
              exact hKeep2 u hu k hk
            · intro bl2 hbl2 k hk hm
              rw [hbld] at hbl2
              injection hbl2 with hbl2
              subst hbl2
              rw [hlastk, hKeep4 k hk hm]
            · intro lk hlk hm
              rw [hlastk] at hlk
              injection hlk with hlk
              exact hrestHead lk hlk hm
          · -- no cut, entry dropped
            refine ih st4 ups ups2 _ infos2 stF hsorted2 h1 ?_ h3r ?_ ?_ hrun
            · intro bl2 hbl2 u hu k hk
              rw [hbld] at hbl2
              injection hbl2 with hbl2
              subst hbl2
              exact hB2 u hu k hk
            · intro bl2 hbl2 k hk hm
              rw [hbld] at hbl2
              injection hbl2 with hbl2
              subst hbl2
              rw [hlastk]
              exact hB4 k hk hm
            · intro lk hlk hm
              rw [hlastk] at hlk
              exact hB5gen lk hlk hm
        · -- a cut fired: the open builder was uploaded
          subst hdup
          have hNoRet : ∀ k ∈ entryKeys bl, k ∉ rest.map (fun x => x.userKey) := by
            intro k hk hm
            have hlastk := hB4 k hk hm
            have hh := h5 k hlastk (by simp [hm])
            rw [List.map_cons, List.head?_cons, Option.some.injEq] at hh
            exact hlastne (by rw [hh, hlastk])
          have hENotBl : e.userKey ∉ entryKeys bl := by
            intro hc
            exact hlastne (h4 bl hb e.userKey hc hmemkey).symm
          have h1C : (ups ++ [(st.sstId, bl)]).Pairwise disjChunk := by
            rw [List.pairwise_append]
            refine ⟨h1, by simp, ?_⟩
            intro u hu v hv
            obtain rfl := List.mem_singleton.mp hv
            intro k hku hkv
            exact hB2 u hu k hkv hku
          have h3C : ∀ u ∈ ups ++ [(st.sstId, bl)], ∀ k ∈ entryKeys u.2,
              k ∉ rest.map (fun x => x.userKey) := by
            intro u hu k hk
            rcases List.mem_append.mp hu with hu2 | hu2
            · exact h3r u hu2 k hk
            · obtain rfl := List.mem_singleton.mp hu2
              exact hNoRet k hk
          have hCfresh : ∀ u ∈ ups ++ [(st.sstId, bl)], e.userKey ∉ entryKeys u.2 := by
            intro u hu
            rcases List.mem_append.mp hu with hu2 | hu2
            · exact hukfresh u hu2
            · obtain rfl := List.mem_singleton.mp hu2
              exact hENotBl
          rcases harm with ⟨_, hbld, hlastk⟩ | ⟨_, hbld, hlastk⟩
          · -- entry kept into the fresh builder
            refine ih st4 (ups ++ [(st.sstId, bl)]) ups2 _ infos2 stF hsorted2 h1C
              ?_ h3C ?_ ?_ hrun
            · intro bl2 hbl2 u hu k hk
              rw [hbld] at hbl2
              injection hbl2 with hbl2
              subst hbl2
              simp [entryKeys] at hk
              subst hk
              exact hCfresh u hu
            · intro bl2 hbl2 k hk hm
              rw [hbld] at hbl2
              injection hbl2 with hbl2
              subst hbl2
              simp [entryKeys] at hk
              subst hk
              exact hlastk
            · intro lk hlk hm
              rw [hlastk] at hlk
              injection hlk with hlk
              exact hrestHead lk hlk hm
          · -- entry dropped; fresh builder stays empty
            refine ih st4 (ups ++ [(st.sstId, bl)]) ups2 _ infos2 stF hsorted2 h1C
              ?_ h3C ?_ ?_ hrun
            · intro bl2 hbl2 u hu k hk
              rw [hbld] at hbl2
              injection hbl2 with hbl2
              subst hbl2
              simp [entryKeys] at hk
            · intro bl2 hbl2 k hk hm
              rw [hbld] at hbl2
              injection hbl2 with hbl2
              subst hbl2
              simp [entryKeys] at hk
            · intro lk hlk hm
              rw [hlastk] at hlk
              exact hB5gen lk hlk hm

/-- Completeness invariant of the compaction loop: the entries of the uploaded
SSTs followed by the still-open builder are exactly the accumulated uploads,
the incoming builder, and the filter's survivors over the stream, in order. -/
theorem compactionLoop_flatten {K V FS PS : Type} [DecidableEq K]
    (env : CompactionEnv K V FS PS) (node capacity : Nat) :
    ∀ (stream : List (KvEntry K V)) (st : CompactionState K V FS PS)
      (ups ups2 : List (Nat × List (KvEntry K V))) (infos infos2 : List SstableInfo)
      (stF : CompactionState K V FS PS),
      compactionLoop env node capacity stream st ups infos = (ups2, Except.ok (stF, infos2)) →
      (ups2.map (fun u => u.2)).flatten ++ stF.builder.getD [] =
        (ups.map (fun u => u.2)).flatten ++ st.builder.getD [] ++
          survivingEntries env st.fs stream := by
  intro stream
  induction stream with
  | nil =>
    intro st ups ups2 infos infos2 stF hrun
    simp only [compactionLoop, Prod.mk.injEq, Except.ok.injEq] at hrun
    obtain ⟨hups, hst, _⟩ := hrun
    subst hups
    subst hst
    simp [survivingEntries]
  | cons e rest ih =>
    intro st ups ups2 infos infos2 stF hrun
    rcases hb : st.builder with _ | bl
    · simp only [compactionLoop, hb] at hrun
      rcases hstep : compactionBody env node capacity e (allocBuilder node st) [] with
        er | ⟨st4, dups, dinfos⟩
      · simp [hstep] at hrun
      · simp only [hstep] at hrun
        obtain ⟨hfs, _, hcases⟩ := compactionBody_spec env node capacity e _ _ rfl hstep
        have hrec := ih st4 (ups ++ dups) ups2 _ infos2 stF hrun
        rcases hcases with ⟨hdup, harm⟩ | ⟨_, hbne, _, _⟩
        · rcases harm with ⟨hkeep, hbld, _⟩ | ⟨hkeep, hbld, _⟩ <;>
          · simp only [allocBuilder] at hkeep hfs
            rw [hrec, hdup, hbld]
            simp [survivingEntries, hkeep, hfs, allocBuilder, hb]
        · exact absurd rfl hbne
    · simp only [compactionLoop, hb] at hrun
      rcases hstep : compactionBody env node capacity e st bl with er | ⟨st4, dups, dinfos⟩
      · simp [hstep] at hrun
      · simp only [hstep] at hrun
        obtain ⟨hfs, _, hcases⟩ := compactionBody_spec env node capacity e _ _ hb hstep
        have hrec := ih st4 (ups ++ dups) ups2 _ infos2 stF hrun
        rcases hcases with ⟨hdup, harm⟩ | ⟨hdup, _, _, harm⟩ <;>
          rcases harm with ⟨hkeep, hbld, _⟩ | ⟨hkeep, hbld, _⟩ <;>
        · rw [hrec, hdup, hbld]
          simp [survivingEntries, hkeep, hfs, hb, List.append_assoc]

/-- The loop only appends to the upload accumulator. -/
theorem compactionLoop_ups_prefix {K V FS PS : Type} [DecidableEq K]
    (env : CompactionEnv K V FS PS) (node capacity : Nat) :
    ∀ (stream : List (KvEntry K V)) (st : CompactionState K V FS PS)
      (ups : List (Nat × List (KvEntry K V))) (infos : List SstableInfo),
      ∃ t, (compactionLoop env node capacity stream st ups infos).1 = ups ++ t := by
  intro stream
  induction stream with
  | nil =>
    intro st ups infos
    exact ⟨[], by simp [compactionLoop]⟩
  | cons e rest ih =>
    intro st ups infos
    rcases hb : st.builder with _ | bl
    · simp only [compactionLoop, hb]
      rcases hstep : compactionBody env node capacity e (allocBuilder node st) [] with
        er | ⟨st4, dups, dinfos⟩
      · exact ⟨[], by simp⟩
      · obtain ⟨t2, ht2⟩ := ih st4 (ups ++ dups) (infos ++ dinfos)
        exact ⟨dups ++ t2, by simp only; rw [ht2, List.append_assoc]⟩
    · simp only [compactionLoop, hb]
      rcases hstep : compactionBody env node capacity e st bl with er | ⟨st4, dups, dinfos⟩
      · exact ⟨[], by simp⟩
      · obtain ⟨t2, ht2⟩ := ih st4 (ups ++ dups) (infos ++ dinfos)
        exact ⟨dups ++ t2, by simp only; rw [ht2, List.append_assoc]⟩

/-- Every info the loop pushes carries the id of an uploaded SST. -/
theorem compactionLoop_infos_ids {K V FS PS : Type} [DecidableEq K]
    (env : CompactionEnv K V FS PS) (node capacity : Nat) :
    ∀ (stream : List (KvEntry K V)) (st : CompactionState K V FS PS)
      (ups ups2 : List (Nat × List (KvEntry K V))) (infos infos2 : List SstableInfo)
      (stF : CompactionState K V FS PS),
      (∀ i ∈ infos, i.id ∈ ups.map (fun u => u.1)) →
      compactionLoop env node capacity stream st ups infos = (ups2, Except.ok (stF, infos2)) →
      ∀ i ∈ infos2, i.id ∈ ups2.map (fun u => u.1) := by
  intro stream
  induction stream with
  | nil =>
    intro st ups ups2 infos infos2 stF hinf hrun
    simp only [compactionLoop, Prod.mk.injEq, Except.ok.injEq] at hrun
    obtain ⟨hups, _, hinfos⟩ := hrun
    subst hups
    subst hinfos
    exact hinf
  | cons e rest ih =>
    intro st ups ups2 infos infos2 stF hinf hrun
    rcases hb : st.builder with _ | bl
    all_goals simp only [compactionLoop, hb] at hrun
    · rcases hstep : compactionBody env node capacity e (allocBuilder node st) [] with
        er | ⟨st4, dups, dinfos⟩
      · simp [hstep] at hrun
      · simp only [hstep] at hrun
        obtain ⟨_, hids, _⟩ := compactionBody_spec env node capacity e _ _ rfl hstep
        refine ih st4 (ups ++ dups) ups2 _ infos2 stF ?_ hrun
        intro i hi
        rw [List.map_append]
        rcases List.mem_append.mp hi with h | h
        · exact List.mem_append.mpr (Or.inl (hinf i h))
        · refine List.mem_append.mpr (Or.inr ?_)
          rw [← hids]
          exact List.mem_map.mpr ⟨i, h, rfl⟩
    · rcases hstep : compactionBody env node capacity e st bl with er | ⟨st4, dups, dinfos⟩
      · simp [hstep] at hrun
      · simp only [hstep] at hrun
        obtain ⟨_, hids, _⟩ := compactionBody_spec env node capacity e _ _ hb hstep
        refine ih st4 (ups ++ dups) ups2 _ infos2 stF ?_ hrun
        intro i hi
        rw [List.map_append]
        rcases List.mem_append.mp hi with h | h
        · exact List.mem_append.mpr (Or.inl (hinf i h))
        · refine List.mem_append.mpr (Or.inr ?_)
          rw [← hids]
          exact List.mem_map.mpr ⟨i, h, rfl⟩

theorem pairwise_disj_get_unique {K V : Type} {ups : List (Nat × List (KvEntry K V))}
    (hp : ups.Pairwise disjChunk) (uk : K) (i j : Fin ups.length)
    (hi : uk ∈ entryKeys (ups.get i).2) (hj : uk ∈ entryKeys (ups.get j).2) : i = j := by
  rcases lt_trichotomy i j with hlt | heq | hgt
  · exact absurd hj (List.pairwise_iff_get.mp hp i j hlt uk hi)
  · exact heq
  · exact absurd hi (List.pairwise_iff_get.mp hp j i hgt uk hj)

/-- C1: for every compaction whose run succeeds, the uploaded output SSTs
together contain exactly the filter's surviving entries of the merged input
stream (in order), and every user_key occurs in at most one output SST: an
output SST is finalized inside the loop only when the open builder is
non-empty, the current entry's user_key differs from the last user_key added,
and the capacity is reached or the partitioner requests a cut, and such a cut
re-processes the current entry into the next SST, so the surviving versions
of one user_key always land in a single output SST. -/
theorem compaction_userkey_single_sst {K V FS PS : Type} [LinearOrder K]
    (env : CompactionEnv K V FS PS) (node ctr0 : Nat) (req : CompactionRequest K)
    (ups : List (Nat × List (KvEntry K V))) (resp : CompactionResponse)
    (hrun : compaction env node ctr0 req = (ups, Except.ok resp)) :
    ((ups.map (fun u => u.2)).flatten = compactionSurvivors env req) ∧
      ∀ (uk : K) (i j : Fin ups.length),
        uk ∈ entryKeys (ups.get i).2 → uk ∈ entryKeys (ups.get j).2 → i = j := by
  unfold compaction at hrun
  rcases hfetch : fetchOldInfos env req.sstIds with er | ⟨oldInfos, tables⟩
  · rw [hfetch] at hrun
    simp at hrun
  · rw [hfetch] at hrun
    simp only at hrun
    rcases hloop : compactionLoop env node req.sstableCapacity (mergeStreams tables)
        (initialState env ctr0 req) [] [] with ⟨ups1, res1⟩
    rw [hloop] at hrun
    rcases res1 with er | ⟨stF, newInfos⟩
    · simp at hrun
    · simp only at hrun
      have hdisj := compactionLoop_disjoint env node req.sstableCapacity
        (mergeStreams tables) (initialState env ctr0 req) [] ups1 [] newInfos stF
        (mergeStreams_keys_sorted tables) List.Pairwise.nil
        (by intro bl hbl; simp [initialState] at hbl)
        (by intro u hu; simp at hu)
        (by intro bl hbl; simp [initialState] at hbl)
        (by intro lk hlk; simp [initialState] at hlk)
        hloop
      have hflat := compactionLoop_flatten env node req.sstableCapacity
        (mergeStreams tables) (initialState env ctr0 req) [] ups1 [] newInfos stF hloop
      have hsurv : compactionSurvivors env req =
          survivingEntries env (env.mkFilter req.watermark req.removeTombstone)
            (mergeStreams tables) := by
        unfold compactionSurvivors
        rw [hfetch]
      rcases hfl : stF.builder with _ | b
      · simp only [hfl, Prod.mk.injEq, Except.ok.injEq] at hrun
        obtain ⟨hups, _⟩ := hrun
        subst hups
        constructor
        · rw [hsurv]
          rw [hfl] at hflat
          simpa [initialState] using hflat
        · intro uk i j hi hj
          exact pairwise_disj_get_unique hdisj.1 uk i j hi hj
      · rcases hupl : env.upload stF.sstId b with er2 | size
        · simp [hfl, hupl] at hrun
        · simp only [hfl, hupl, Prod.mk.injEq, Except.ok.injEq] at hrun
          obtain ⟨hups, _⟩ := hrun
          subst hups
          have hpair : (ups1 ++ [(stF.sstId, b)]).Pairwise disjChunk := by
            rw [List.pairwise_append]
            refine ⟨hdisj.1, by simp, ?_⟩
            intro u hu v hv
            obtain rfl := List.mem_singleton.mp hv
            intro k hku hkv
            exact hdisj.2 b hfl u hu k hkv hku
          constructor
          · rw [hsurv]
            rw [hfl] at hflat
            simp only [List.map_append, List.flatten_append] at *
            simp only [initialState] at hflat
            simpa using hflat
          · intro uk i j hi hj
            exact pairwise_disj_get_unique hpair uk i j hi hj

/-- Witness environment for the compaction theorems: a single input SST with
two user keys, keep-everything filter, no partition cuts, builder length as
approximate length, upload always succeeds. -/
def envC : CompactionEnv Nat Nat Unit Unit :=
  { fetch := fun id =>
      if id = 1 then Except.ok ([⟨1, 2, 10⟩, ⟨2, 1, 20⟩], 5) else Except.error "missing"
    mkFilter := fun _ _ => ()
    mkPartitioner := fun _ => ()
    filter := fun s _ _ _ => (true, s)
    partition := fun s _ _ _ => (false, s)
    approxLen := fun b => b.length
    upload := fun _ b => Except.ok b.length }

/-- Witness request: input SST 1, capacity 1 (forces a cut at the user-key
boundary). -/
def reqC : CompactionRequest Nat :=
  { sstIds := [1], sstableCapacity := 1, blockCapacity := 64, restartInterval := 2,
    compressionAlgorithm := CompressionAlg.NoCompression, watermark := 0,
    removeTombstone := false, partitionPoints := [] }

/-- The uploads the witness compaction performs: one SST per user key. -/
def upsC : List (Nat × List (KvEntry Nat Nat)) :=
  [(4294967296, [⟨1, 2, 10⟩]), (4294967297, [⟨2, 1, 20⟩])]

/-- The response of the witness compaction. -/
def respC : CompactionResponse :=
  { oldSstInfos := [⟨1, 5⟩],
    newSstInfos := [⟨4294967296, 1⟩, ⟨4294967297, 1⟩] }

/-- Witness for C1 at a concrete input: the two-key compaction splits into two
SSTs whose contents are the survivors, and the key 1 only occurs in one SST. -/
theorem compaction_userkey_single_sst_witness :
    ((upsC.map (fun u => u.2)).flatten = compactionSurvivors envC reqC) ∧
      (⟨0, by decide⟩ : Fin upsC.length) = ⟨0, by decide⟩ :=
  ⟨(compaction_userkey_single_sst envC 1 0 reqC upsC respC (by rfl)).1,
    (compaction_userkey_single_sst envC 1 0 reqC upsC respC (by rfl)).2 1
      ⟨0, by decide⟩ ⟨0, by decide⟩ (by decide) (by decide)⟩

/-- C4: for every compaction request, every error path returns a gRPC status
with code Internal carrying the error's message (no response is produced), and
every info in a successful response's new_sst_infos refers to an SST that was
actually uploaded during this very request; a caller only ever sees
new_sst_infos from a fully completed request. -/
theorem compaction_error_atomicity {K V FS PS : Type} [LinearOrder K]
    (env : CompactionEnv K V FS PS) (node ctr0 : Nat) (req : CompactionRequest K)
    (ups : List (Nat × List (KvEntry K V))) (res : Except GStatus CompactionResponse)
    (hrun : compaction env node ctr0 req = (ups, res)) :
    (∀ s, res = Except.error s → s.code = GStatusCode.internalCode) ∧
      ∀ resp, res = Except.ok resp → ∀ info ∈ resp.newSstInfos,
        info.id ∈ ups.map (fun u => u.1) := by
  unfold compaction at hrun
  rcases hfetch : fetchOldInfos env req.sstIds with er | ⟨oldInfos, tables⟩
  · rw [hfetch] at hrun
    simp only [Prod.mk.injEq] at hrun
    obtain ⟨hups, hres⟩ := hrun
    subst hups
    subst hres
    refine ⟨fun s hs => ?_, fun resp hresp => by simp at hresp⟩
    simp only [Except.error.injEq] at hs
    rw [← hs]
    rfl
  · rw [hfetch] at hrun
    simp only at hrun
    rcases hloop : compactionLoop env node req.sstableCapacity (mergeStreams tables)
        (initialState env ctr0 req) [] [] with ⟨ups1, res1⟩
    rw [hloop] at hrun
    rcases res1 with er | ⟨stF, newInfos⟩
    · simp only [Prod.mk.injEq] at hrun
      obtain ⟨hups, hres⟩ := hrun
      subst hups
      subst hres
      refine ⟨fun s hs => ?_, fun resp hresp => by simp at hresp⟩
      simp only [Except.error.injEq] at hs
      rw [← hs]
      rfl
    · simp only at hrun
      have hids := compactionLoop_infos_ids env node req.sstableCapacity
        (mergeStreams tables) (initialState env ctr0 req) [] ups1 [] newInfos stF
        (by intro i hi; simp at hi) hloop
      rcases hfl : stF.builder with _ | b
      · simp only [hfl, Prod.mk.injEq] at hrun
        obtain ⟨hups, hres⟩ := hrun
        subst hups
        subst hres
        refine ⟨fun s hs => by simp at hs, fun resp hresp => ?_⟩
        simp only [Except.ok.injEq] at hresp
        subst hresp
        intro info hinfo
        exact hids info hinfo
      · rcases hupl : env.upload stF.sstId b with er2 | size
        · simp only [hfl, hupl, Prod.mk.injEq] at hrun
          obtain ⟨hups, hres⟩ := hrun
          subst hups
          subst hres
          refine ⟨fun s hs => ?_, fun resp hresp => by simp at hresp⟩
          simp only [Except.error.injEq] at hs
          rw [← hs]
          rfl
        · simp only [hfl, hupl, Prod.mk.injEq] at hrun
          obtain ⟨hups, hres⟩ := hrun
          subst hups
          subst hres
          refine ⟨fun s hs => by simp at hs, fun resp hresp => ?_⟩
          simp only [Except.ok.injEq] at hresp
          subst hresp
          intro info hinfo
          simp only [List.mem_append, List.mem_singleton] at hinfo
          simp only [List.map_append, List.mem_append]
          rcases hinfo with hinfo | rfl
          · exact Or.inl (hids info hinfo)
          · simp

/-- Witness environment whose every SST fetch fails, for the error side of C4. -/
def envE : CompactionEnv Nat Nat Unit Unit :=
  { envC with fetch := fun _ => Except.error "missing" }

/-- Witness for C4 at concrete inputs: a failing fetch yields an Internal
status, and in the successful two-key compaction the first reported new SST id
was indeed uploaded. -/
theorem compaction_error_atomicity_witness :
    (internal "missing").code = GStatusCode.internalCode ∧
      (SstableInfo.mk 4294967296 1).id ∈ upsC.map (fun u => u.1) :=
  ⟨(compaction_error_atomicity envE 1 0 reqC []
        (Except.error (internal "missing")) (by rfl)).1 (internal "missing") rfl,
    (compaction_error_atomicity envC 1 0 reqC upsC (Except.ok respC) (by rfl)).2
      respC rfl (SstableInfo.mk 4294967296 1) (by simp [respC])⟩

/-- C8: a compaction request with an empty sst_ids list succeeds with a
response whose old_sst_infos and new_sst_infos are both empty, uploading
nothing; moreover the loop over the (empty) merged stream allocates no builder
and builds nothing: it returns its accumulators and state unchanged. -/
theorem compaction_empty_input {K V FS PS : Type} [LinearOrder K]
    (env : CompactionEnv K V FS PS) (node ctr0 : Nat) (req : CompactionRequest K)
    (hempty : req.sstIds = []) :
    compaction env node ctr0 req =
        ([], Except.ok { oldSstInfos := [], newSstInfos := [] }) ∧
      ∀ (st : CompactionState K V FS PS) (ups : List (Nat × List (KvEntry K V)))
        (infos : List SstableInfo),
        compactionLoop env node req.sstableCapacity [] st ups infos =
          (ups, Except.ok (st, infos)) := by
  constructor
  · unfold compaction
    rw [hempty]
    rfl
  · intro st ups infos
    rfl

/-- Witness request with an empty sst_ids list for C8. -/
def reqEmpty : CompactionRequest Nat :=
  { reqC with sstIds := [] }

/-- Witness for C8 at a concrete input: the empty-input compaction returns the
empty response and the loop leaves state and accumulators untouched. -/
theorem compaction_empty_input_witness :
    compaction envC 1 0 reqEmpty =
        ([], Except.ok { oldSstInfos := [], newSstInfos := [] }) ∧
      compactionLoop envC 1 reqEmpty.sstableCapacity ([] : List (KvEntry Nat Nat))
          (initialState envC 0 reqEmpty) [] [] =
        ([], Except.ok (initialState envC 0 reqEmpty, [])) :=
  ⟨(compaction_empty_input envC 1 0 reqEmpty rfl).1,
    (compaction_empty_input envC 1 0 reqEmpty rfl).2 (initialState envC 0 reqEmpty) [] []⟩

end RunKV
